import Mathlib

/-!
# Verification of the `query-params` schema-driven codec

A shallow embedding of the encoded-state codec: the byte-level serialization
stand-in for the protobuf wire layer, base64url text encoding, the Zod schema
universe with reserved-field validation, the encode/decode orchestrator, the
migration engine, the 2-byte framing header, and boolean bit-packing.
Each claim about the codec is stated and settled as a theorem below the
definitions.
-/

set_option maxHeartbeats 1000000

deriving instance DecidableEq for Except

namespace QP

/-! ## Variable-length natural-number encoding (byte-level primitive)

The wire payload produced by the protobuf library is a byte string.  We model
the external serialization library with an executable, self-describing byte
codec; naturals are written little-endian base 128 with a continuation bit,
mirroring protobuf varints. -/

def natEnc (n : Nat) : List Nat :=
  if n < 128 then [n] else (128 + n % 128) :: natEnc (n / 128)
termination_by n
decreasing_by exact Nat.div_lt_self (by omega) (by omega)

def natDec : List Nat → Option (Nat × List Nat)
  | [] => none
  | b :: rest =>
    if b < 128 then some (b, rest)
    else
      match natDec rest with
      | some (m, r) => some ((b - 128) + 128 * m, r)
      | none => none

theorem natDec_natEnc (n : Nat) (rest : List Nat) :
    natDec (natEnc n ++ rest) = some (n, rest) := by
  by_cases h : n < 128
  · rw [natEnc]
    simp [h, natDec]
  · rw [natEnc]
    simp only [if_neg h, List.cons_append]
    have ih := natDec_natEnc (n / 128) rest
    simp only [natDec, ih]
    have h1 : ¬ (128 + n % 128 < 128) := by omega
    simp only [if_neg h1]
    congr 1
    congr 1
    omega
termination_by n
decreasing_by exact Nat.div_lt_self (by omega) (by omega)

theorem natEnc_length_pos (n : Nat) : 1 ≤ (natEnc n).length := by
  rw [natEnc]
  split <;> simp

theorem natEnc_lt (n : Nat) : ∀ x ∈ natEnc n, x < 256 := by
  by_cases h : n < 128
  · rw [natEnc]; simp [h]; omega
  · rw [natEnc]
    simp only [if_neg h, List.mem_cons]
    intro x hx
    rcases hx with hx | hx
    · omega
    · exact natEnc_lt (n / 128) x hx
termination_by n
decreasing_by exact Nat.div_lt_self (by omega) (by omega)

/-! ## Character sequences on the wire -/

def serChars : List Char → List Nat
  | [] => []
  | c :: cs => natEnc c.toNat ++ serChars cs

def deserChars : Nat → List Nat → Option (List Char × List Nat)
  | 0, bs => some ([], bs)
  | k + 1, bs =>
    match natDec bs with
    | some (n, r) =>
      match deserChars k r with
      | some (cs, r') => some (Char.ofNat n :: cs, r')
      | none => none
    | none => none

theorem deserChars_serChars (cs : List Char) (rest : List Nat) :
    deserChars cs.length (serChars cs ++ rest) = some (cs, rest) := by
  induction cs generalizing rest with
  | nil => simp [serChars, deserChars]
  | cons c cs ih =>
    simp only [serChars, List.length_cons, deserChars, List.append_assoc,
      natDec_natEnc, ih]
    simp [Char.ofNat_toNat]

theorem serChars_lt (cs : List Char) : ∀ x ∈ serChars cs, x < 256 := by
  induction cs with
  | nil => simp [serChars]
  | cons c cs ih =>
    simp only [serChars, List.mem_append]
    intro x hx
    rcases hx with hx | hx
    · exact natEnc_lt _ x hx
    · exact ih x hx

/-! ## Base64url (URL-safe alphabet, no padding)

Models `encodeBase64Url`/`decodeBase64Url` from
`src/packages/core/src/compression/platform.ts`: standard base64 with `-`/`_`
substituted and padding stripped. -/

def toSextets : List Nat → List Nat
  | b0 :: b1 :: b2 :: rest =>
    (b0 / 4) :: (b0 % 4 * 16 + b1 / 16) :: (b1 % 16 * 4 + b2 / 64) :: (b2 % 64)
      :: toSextets rest
  | [b0] => [b0 / 4, b0 % 4 * 16]
  | [b0, b1] => [b0 / 4, b0 % 4 * 16 + b1 / 16, b1 % 16 * 4]
  | [] => []

def fromSextets : List Nat → List Nat
  | s0 :: s1 :: s2 :: s3 :: rest =>
    (s0 * 4 + s1 / 16) :: (s1 % 16 * 16 + s2 / 4) :: (s2 % 4 * 64 + s3)
      :: fromSextets rest
  | [s0, s1] => [s0 * 4 + s1 / 16]
  | [s0, s1, s2] => [s0 * 4 + s1 / 16, s1 % 16 * 16 + s2 / 4]
  | _ => []

theorem fromSextets_toSextets (b : List Nat) (hb : ∀ x ∈ b, x < 256) :
    fromSextets (toSextets b) = b := by
  match b with
  | [] => rfl
  | [b0] =>
    have h0 : b0 < 256 := hb b0 (by simp)
    simp only [toSextets, fromSextets]
    congr 1
    omega
  | [b0, b1] =>
    have h0 : b0 < 256 := hb b0 (by simp)
    have h1 : b1 < 256 := hb b1 (by simp)
    simp only [toSextets, fromSextets]
    congr 1
    · omega
    · congr 1; omega
  | b0 :: b1 :: b2 :: rest =>
    have h0 : b0 < 256 := hb b0 (by simp)
    have h1 : b1 < 256 := hb b1 (by simp)
    have h2 : b2 < 256 := hb b2 (by simp)
    have ih := fromSextets_toSextets rest (fun x hx => hb x (by simp [hx]))
    simp only [toSextets, fromSextets, ih]
    congr 1
    · omega
    congr 1
    · omega
    congr 1
    omega

theorem toSextets_lt (b : List Nat) (hb : ∀ x ∈ b, x < 256) :
    ∀ s ∈ toSextets b, s < 64 := by
  match b with
  | [] => simp [toSextets]
  | [b0] =>
    have h0 : b0 < 256 := hb b0 (by simp)
    simp only [toSextets]
    intro s hs
    simp only [List.mem_cons, List.mem_singleton, List.not_mem_nil, or_false] at hs
    rcases hs with hs | hs <;> omega
  | [b0, b1] =>
    have h0 : b0 < 256 := hb b0 (by simp)
    have h1 : b1 < 256 := hb b1 (by simp)
    simp only [toSextets]
    intro s hs
    simp only [List.mem_cons, List.not_mem_nil, or_false] at hs
    rcases hs with hs | hs | hs <;> omega
  | b0 :: b1 :: b2 :: rest =>
    have h0 : b0 < 256 := hb b0 (by simp)
    have h1 : b1 < 256 := hb b1 (by simp)
    have h2 : b2 < 256 := hb b2 (by simp)
    have ih := toSextets_lt rest (fun x hx => hb x (by simp [hx]))
    simp only [toSextets]
    intro s hs
    simp only [List.mem_cons] at hs
    rcases hs with hs | hs | hs | hs | hs
    · omega
    · omega
    · omega
    · omega
    · exact ih s hs

def b64Chars : List Char :=
  "ABCDEFGHIJKLMNOPQRSTUVWXYZabcdefghijklmnopqrstuvwxyz0123456789-_".data

def sextetChar (s : Nat) : Char := b64Chars.getD s 'A'

def charSextet (c : Char) : Nat := b64Chars.indexOf c

theorem charSextet_sextetChar : ∀ s : Nat, s < 64 → charSextet (sextetChar s) = s := by
  decide

/-- `encodeBase64Url` from `compression/platform.ts`: bytes to URL-safe text. -/
def encodeBase64Url (b : List Nat) : List Char := (toSextets b).map sextetChar

/-- `decodeBase64Url` from `compression/platform.ts`.  Like `Buffer.from`,
characters outside the alphabet are skipped rather than rejected. -/
def decodeBase64Url (cs : List Char) : List Nat :=
  fromSextets ((cs.map charSextet).filter (· < 64))

theorem decodeBase64Url_encodeBase64Url (b : List Nat) (hb : ∀ x ∈ b, x < 256) :
    decodeBase64Url (encodeBase64Url b) = b := by
  unfold decodeBase64Url encodeBase64Url
  have hmap : (toSextets b).map (fun s => charSextet (sextetChar s)) =
      (toSextets b).map id := by
    apply List.map_congr_left
    intro s hs
    simp [charSextet_sextetChar s (toSextets_lt b hb s hs)]
  rw [List.map_map]
  have : (toSextets b).map (charSextet ∘ sextetChar) = toSextets b := by
    rw [show charSextet ∘ sextetChar = fun s => charSextet (sextetChar s) from rfl,
      hmap, List.map_id]
  rw [this]
  have hfilter : (toSextets b).filter (· < 64) = toSextets b := by
    apply List.filter_eq_self.mpr
    intro s hs
    simp only [decide_eq_true_eq]
    exact toSextets_lt b hb s hs
  rw [hfilter]
  exact fromSextets_toSextets b hb

/-! ## The value universe

JavaScript values as handled by the codec: strings, booleans, numbers
(integral, as used by the version field), null, arrays and plain objects
(ordered key/value lists — JS objects preserve insertion order). -/

mutual
inductive JVal where
  | jstr (s : String)
  | jbool (b : Bool)
  | jnum (n : Int)
  | jnull
  | jarr (elems : JArr)
  | jobj (fields : JObj)
  deriving DecidableEq
inductive JArr where
  | anil
  | acons (head : JVal) (tail : JArr)
  deriving DecidableEq
inductive JObj where
  | onil
  | ocons (key : String) (val : JVal) (rest : JObj)
  deriving DecidableEq
end

/-- Key lookup in a JS object (first occurrence). -/
def JObj.lookup : JObj → String → Option JVal
  | .onil, _ => none
  | .ocons k v rest, key => if k = key then some v else rest.lookup key

/-- Key removal, as performed by `const { [RESERVED_FIELD]: _, ...rest }`. -/
def JObj.removeKey : JObj → String → JObj
  | .onil, _ => .onil
  | .ocons k v rest, key =>
    if k = key then rest.removeKey key else .ocons k v (rest.removeKey key)

def JObj.keys : JObj → List String
  | .onil => []
  | .ocons k _ rest => k :: rest.keys

/-! ## Typed protobuf messages

The message objects handed to / returned by the protobuf library
(`pbType.fromObject` / `pbType.toObject`): field values typed per the wire
descriptor. -/

mutual
inductive PbVal where
  | vstr (s : String)
  | vbool (b : Bool)
  | vuint (n : Nat)
  | vmsg (fields : PbMsg)
  | varr (elems : PbArr)
  deriving DecidableEq
inductive PbMsg where
  | mnil
  | mcons (name : String) (v : PbVal) (rest : PbMsg)
  deriving DecidableEq
inductive PbArr where
  | pnil
  | pcons (head : PbVal) (tail : PbArr)
  deriving DecidableEq
end

def PbMsg.count : PbMsg → Nat
  | .mnil => 0
  | .mcons _ _ rest => rest.count + 1

def PbArr.count : PbArr → Nat
  | .pnil => 0
  | .pcons _ rest => rest.count + 1

def PbMsg.lookup : PbMsg → String → Option PbVal
  | .mnil, _ => none
  | .mcons k v rest, key => if k = key then some v else rest.lookup key

/-! ## Wire serialization of typed messages

Stand-in for `pbType.encode(message).finish()` / `pbType.decode(binary)`: a
deterministic, self-describing byte layout (tag byte, then varint-framed
payload) with a proven round trip.  `deser` consumes a prefix and returns the
unconsumed tail; the decoder is total and fails on malformed bytes, matching
the `DecodingError` path of the decoder. -/

mutual
def serV : PbVal → List Nat
  | .vstr s => 0 :: (natEnc s.data.length ++ serChars s.data)
  | .vbool b => [1, if b then 1 else 0]
  | .vuint n => 2 :: natEnc n
  | .vmsg m => 3 :: (natEnc m.count ++ serMsg m)
  | .varr a => 4 :: (natEnc a.count ++ serArr a)
def serMsg : PbMsg → List Nat
  | .mnil => []
  | .mcons name v rest =>
    natEnc name.data.length ++ serChars name.data ++ serV v ++ serMsg rest
def serArr : PbArr → List Nat
  | .pnil => []
  | .pcons v rest => serV v ++ serArr rest
end

mutual
def deserV : Nat → List Nat → Option (PbVal × List Nat)
  | 0, _ => none
  | fuel + 1, bs =>
    match bs with
    | 0 :: r =>
      match natDec r with
      | some (len, r1) =>
        match deserChars len r1 with
        | some (cs, r2) => some (.vstr (String.mk cs), r2)
        | none => none
      | none => none
    | 1 :: x :: r =>
      if x = 1 then some (.vbool true, r)
      else if x = 0 then some (.vbool false, r) else none
    | 2 :: r =>
      match natDec r with
      | some (n, r1) => some (.vuint n, r1)
      | none => none
    | 3 :: r =>
      match natDec r with
      | some (count, r1) =>
        match deserMsg fuel count r1 with
        | some (m, r2) => some (.vmsg m, r2)
        | none => none
      | none => none
    | 4 :: r =>
      match natDec r with
      | some (count, r1) =>
        match deserArr fuel count r1 with
        | some (a, r2) => some (.varr a, r2)
        | none => none
      | none => none
    | _ => none
  termination_by fuel _ => (fuel, 0)
def deserMsg : Nat → Nat → List Nat → Option (PbMsg × List Nat)
  | _, 0, bs => some (.mnil, bs)
  | fuel, count + 1, bs =>
    match natDec bs with
    | some (len, r1) =>
      match deserChars len r1 with
      | some (cs, r2) =>
        match deserV fuel r2 with
        | some (v, r3) =>
          match deserMsg fuel count r3 with
          | some (m, r4) => some (.mcons (String.mk cs) v m, r4)
          | none => none
        | none => none
      | none => none
    | none => none
  termination_by fuel count _ => (fuel, count + 1)
def deserArr : Nat → Nat → List Nat → Option (PbArr × List Nat)
  | _, 0, bs => some (.pnil, bs)
  | fuel, count + 1, bs =>
    match deserV fuel bs with
    | some (v, r1) =>
      match deserArr fuel count r1 with
      | some (a, r2) => some (.pcons v a, r2)
      | none => none
    | none => none
  termination_by fuel count _ => (fuel, count + 1)
end

theorem serV_length_pos (v : PbVal) : 1 ≤ (serV v).length := by
  cases v <;> simp [serV]

mutual
theorem deserV_serV (v : PbVal) (rest : List Nat) (fuel : Nat)
    (h : (serV v).length ≤ fuel) :
    deserV fuel (serV v ++ rest) = some (v, rest) := by
  cases fuel with
  | zero => have := serV_length_pos v; omega
  | succ fuel =>
    cases v with
    | vstr s =>
      obtain ⟨cs⟩ := s
      simp only [serV, List.cons_append, List.append_assoc, deserV,
        natDec_natEnc, deserChars_serChars]
    | vbool b =>
      cases b <;> simp [serV, deserV]
    | vuint n =>
      simp only [serV, List.cons_append, deserV, natDec_natEnc]
    | vmsg m =>
      simp only [serV, List.cons_append, List.append_assoc, deserV, natDec_natEnc]
      rw [deserMsg_serMsg m rest fuel (by
        simp only [serV, List.length_cons, List.length_append] at h
        have := natEnc_length_pos m.count
        omega)]
    | varr a =>
      simp only [serV, List.cons_append, List.append_assoc, deserV, natDec_natEnc]
      rw [deserArr_serArr a rest fuel (by
        simp only [serV, List.length_cons, List.length_append] at h
        have := natEnc_length_pos a.count
        omega)]
theorem deserMsg_serMsg (m : PbMsg) (rest : List Nat) (fuel : Nat)
    (h : (serMsg m).length ≤ fuel) :
    deserMsg fuel m.count (serMsg m ++ rest) = some (m, rest) := by
  cases m with
  | mnil => simp [serMsg, PbMsg.count, deserMsg]
  | mcons name v tail =>
    obtain ⟨cs⟩ := name
    have hlen : (serMsg (.mcons ⟨cs⟩ v tail)).length =
        (natEnc cs.length).length + (serChars cs).length + (serV v).length +
          (serMsg tail).length := by
      simp [serMsg]
      omega
    simp only [serMsg, PbMsg.count, List.append_assoc]
    show deserMsg fuel (tail.count + 1) _ = _
    simp only [deserMsg, natDec_natEnc, deserChars_serChars,
      deserV_serV v _ fuel (by omega), deserMsg_serMsg tail rest fuel (by omega)]
theorem deserArr_serArr (a : PbArr) (rest : List Nat) (fuel : Nat)
    (h : (serArr a).length ≤ fuel) :
    deserArr fuel a.count (serArr a ++ rest) = some (a, rest) := by
  cases a with
  | pnil => simp [serArr, PbArr.count, deserArr]
  | pcons v tail =>
    have hlen : (serArr (.pcons v tail)).length =
        (serV v).length + (serArr tail).length := by simp [serArr]
    simp only [serArr, PbArr.count, List.append_assoc]
    show deserArr fuel (tail.count + 1) _ = _
    simp only [deserArr, deserV_serV v _ fuel (by omega),
      deserArr_serArr tail rest fuel (by omega)]
end

mutual
theorem serV_lt (v : PbVal) : ∀ x ∈ serV v, x < 256 := by
  cases v with
  | vstr s =>
    simp only [serV, List.mem_cons, List.mem_append]
    rintro x (rfl | hx | hx)
    · omega
    · exact natEnc_lt _ x hx
    · exact serChars_lt _ x hx
  | vbool b =>
    cases b <;> simp [serV]
  | vuint n =>
    simp only [serV, List.mem_cons]
    rintro x (rfl | hx)
    · omega
    · exact natEnc_lt _ x hx
  | vmsg m =>
    simp only [serV, List.mem_cons, List.mem_append]
    rintro x (rfl | hx | hx)
    · omega
    · exact natEnc_lt _ x hx
    · exact serMsg_lt m x hx
  | varr a =>
    simp only [serV, List.mem_cons, List.mem_append]
    rintro x (rfl | hx | hx)
    · omega
    · exact natEnc_lt _ x hx
    · exact serArr_lt a x hx
theorem serMsg_lt (m : PbMsg) : ∀ x ∈ serMsg m, x < 256 := by
  cases m with
  | mnil => simp [serMsg]
  | mcons name v tail =>
    simp only [serMsg, List.mem_append]
    rintro x (((hx | hx) | hx) | hx)
    · exact natEnc_lt _ x hx
    · exact serChars_lt _ x hx
    · exact serV_lt v x hx
    · exact serMsg_lt tail x hx
theorem serArr_lt (a : PbArr) : ∀ x ∈ serArr a, x < 256 := by
  cases a with
  | pnil => simp [serArr]
  | pcons v tail =>
    simp only [serArr, List.mem_append]
    rintro x (hx | hx)
    · exact serV_lt v x hx
    · exact serArr_lt tail x hx
end

/-- Top-level wire decode, as `pbType.decode`: fuel bounded by input length. -/
def pbDecode (bs : List Nat) : Option PbVal :=
  match deserV (bs.length + 1) bs with
  | some (v, _) => some v
  | none => none

theorem pbDecode_serV (v : PbVal) : pbDecode (serV v) = some v := by
  unfold pbDecode
  have h := deserV_serV v [] ((serV v).length + 1) (by omega)
  rw [List.append_nil] at h
  rw [h]

/-! ## The Zod schema universe

The schema constructs the codec handles, mirroring the dispatch in
`src/packages/core/src/validation.ts` and `src/packages/core/src/protobuf/converter.ts`.
A `zrecord` is string-keyed (`z.record(valueSchema)`); `zdefault` carries its
default value; `zlazy` wraps the schema its getter returns. -/

mutual
inductive ZSchema where
  | zstring
  | zbool
  | zobject (fields : ZFields)
  | zarray (elem : ZSchema)
  | zoptional (inner : ZSchema)
  | znullable (inner : ZSchema)
  | zdefault (inner : ZSchema) (dflt : JVal)
  | zunion (opts : ZList)
  | zdiscUnion (opts : ZList)
  | zintersection (left right : ZSchema)
  | zrecord (value : ZSchema)
  | zmap (key value : ZSchema)
  | ztuple (items : ZList)
  | zeffects (inner : ZSchema)
  | zpipeline (pin pout : ZSchema)
  | zlazy (inner : ZSchema)
inductive ZFields where
  | fnil
  | fcons (name : String) (schema : ZSchema) (rest : ZFields)
inductive ZList where
  | lnil
  | lcons (head : ZSchema) (tail : ZList)
end

/-- `RESERVED_FIELD` from `src/packages/core/src/validation.ts`. -/
def reservedField : String := "_encodedStateVersion"

/-- `RESERVED_FIELD in shape`: is some key of the object shape the reserved
name? -/
def hasReservedKey : ZFields → Bool
  | .fnil => false
  | .fcons name _ rest => name == reservedField || hasReservedKey rest

/-! `hasReservedField` from `src/packages/core/src/validation.ts` (lines
29–140): recursive search for the reserved field name through every supported
construct.  The source's `WeakSet` cycle guard only re-returns `false` for
schemas already searched unsuccessfully, so on the (finite) schema trees of
this universe the function is plain structural recursion. -/
mutual
def hasReservedField : ZSchema → Bool
  | .zobject fields => hasReservedKey fields || hasReservedInFields fields
  | .zarray elem => hasReservedField elem
  | .zoptional inner => hasReservedField inner
  | .znullable inner => hasReservedField inner
  | .zdefault inner _ => hasReservedField inner
  | .zunion opts => hasReservedInList opts
  | .zdiscUnion opts => hasReservedInList opts
  | .zintersection l r => hasReservedField l || hasReservedField r
  | .zrecord value => hasReservedField value
  | .zmap key value => hasReservedField key || hasReservedField value
  | .ztuple items => hasReservedInList items
  | .zeffects inner => hasReservedField inner
  | .zpipeline pin pout => hasReservedField pin || hasReservedField pout
  | .zlazy inner => hasReservedField inner
  | .zstring => false
  | .zbool => false
def hasReservedInFields : ZFields → Bool
  | .fnil => false
  | .fcons _ schema rest => hasReservedField schema || hasReservedInFields rest
def hasReservedInList : ZList → Bool
  | .lnil => false
  | .lcons head tail => hasReservedField head || hasReservedInList tail
end

/-! The specification's notion: the schema contains, at any nesting depth, a
field literally named the reserved version-field identifier.  Defined
independently of `hasReservedField` as a uniform recursion through all child
schemas, so the two can be compared. -/
mutual
def specContainsReserved : ZSchema → Bool
  | .zobject fields => specFieldsReserved fields
  | .zarray elem => specContainsReserved elem
  | .zoptional inner => specContainsReserved inner
  | .znullable inner => specContainsReserved inner
  | .zdefault inner _ => specContainsReserved inner
  | .zunion opts => specListReserved opts
  | .zdiscUnion opts => specListReserved opts
  | .zintersection l r => specContainsReserved l || specContainsReserved r
  | .zrecord value => specContainsReserved value
  | .zmap key value => specContainsReserved key || specContainsReserved value
  | .ztuple items => specListReserved items
  | .zeffects inner => specContainsReserved inner
  | .zpipeline pin pout => specContainsReserved pin || specContainsReserved pout
  | .zlazy inner => specContainsReserved inner
  | .zstring => false
  | .zbool => false
def specFieldsReserved : ZFields → Bool
  | .fnil => false
  | .fcons name schema rest =>
    name == reservedField || specContainsReserved schema || specFieldsReserved rest
def specListReserved : ZList → Bool
  | .lnil => false
  | .lcons head tail => specContainsReserved head || specListReserved tail
end

mutual
theorem hasReservedField_eq_spec (s : ZSchema) :
    hasReservedField s = specContainsReserved s := by
  cases s with
  | zobject fields =>
    simp only [hasReservedField, specContainsReserved]
    exact hasReserved_fields_eq_spec fields
  | zarray elem => simp only [hasReservedField, specContainsReserved,
      hasReservedField_eq_spec elem]
  | zoptional inner => simp only [hasReservedField, specContainsReserved,
      hasReservedField_eq_spec inner]
  | znullable inner => simp only [hasReservedField, specContainsReserved,
      hasReservedField_eq_spec inner]
  | zdefault inner d => simp only [hasReservedField, specContainsReserved,
      hasReservedField_eq_spec inner]
  | zunion opts => simp only [hasReservedField, specContainsReserved,
      hasReserved_list_eq_spec opts]
  | zdiscUnion opts => simp only [hasReservedField, specContainsReserved,
      hasReserved_list_eq_spec opts]
  | zintersection l r => simp only [hasReservedField, specContainsReserved,
      hasReservedField_eq_spec l, hasReservedField_eq_spec r]
  | zrecord value => simp only [hasReservedField, specContainsReserved,
      hasReservedField_eq_spec value]
  | zmap key value => simp only [hasReservedField, specContainsReserved,
      hasReservedField_eq_spec key, hasReservedField_eq_spec value]
  | ztuple items => simp only [hasReservedField, specContainsReserved,
      hasReserved_list_eq_spec items]
  | zeffects inner => simp only [hasReservedField, specContainsReserved,
      hasReservedField_eq_spec inner]
  | zpipeline pin pout => simp only [hasReservedField, specContainsReserved,
      hasReservedField_eq_spec pin, hasReservedField_eq_spec pout]
  | zlazy inner => simp only [hasReservedField, specContainsReserved,
      hasReservedField_eq_spec inner]
  | zstring => rfl
  | zbool => rfl
theorem hasReserved_fields_eq_spec (fields : ZFields) :
    (hasReservedKey fields || hasReservedInFields fields) =
      specFieldsReserved fields := by
  cases fields with
  | fnil => rfl
  | fcons name schema rest =>
    simp only [hasReservedKey, hasReservedInFields, specFieldsReserved,
      hasReservedField_eq_spec schema, ← hasReserved_fields_eq_spec rest]
    cases name == reservedField <;>
      cases specContainsReserved schema <;>
      cases hasReservedKey rest <;>
      cases hasReservedInFields rest <;> rfl
theorem hasReserved_list_eq_spec (opts : ZList) :
    hasReservedInList opts = specListReserved opts := by
  cases opts with
  | lnil => rfl
  | lcons head tail =>
    simp only [hasReservedInList, specListReserved,
      hasReservedField_eq_spec head, hasReserved_list_eq_spec tail]
end

/-! ## Errors

The typed error classes from `src/packages/core/src/errors.ts`, plus the
`ZodError` thrown by `schema.parse` and the plain `Error` thrown by the
converter. -/

inductive Err where
  | validation (msg : String)
  | decoding (msg : String)
  | compression (msg : String)
  | versionMismatch (msg : String)
  | zodError
  | generic (msg : String)
  deriving DecidableEq

/-- `validateSchema` from `src/packages/core/src/validation.ts`. -/
def validateSchema (s : ZSchema) : Except Err Unit :=
  if hasReservedField s then
    .error (.validation ("Field name \"" ++ reservedField ++
      "\" is reserved and cannot be used in schemas"))
  else .ok ()

/-! ## `schema.parse` — the Zod validation front-end

Consumed at its interface boundary per the spec: a value-validation function
`(raw) -> typed value | error`.  Objects are parsed in declared shape order
with unknown keys stripped (Zod's default "strip" mode); absent optional
fields are omitted from the output; defaulted fields are filled.
Discriminated-union dispatch and intersection merging are approximated by
first-success / equality; the converter rejects both constructs before any
pipeline theorem exercises those branches. -/

mutual
def zparse : ZSchema → JVal → Except Err JVal
  | .zstring, .jstr s => .ok (.jstr s)
  | .zstring, _ => .error .zodError
  | .zbool, .jbool b => .ok (.jbool b)
  | .zbool, _ => .error .zodError
  | .zobject fields, .jobj o => do
      let o' ← zparseFields fields o
      .ok (.jobj o')
  | .zobject _, _ => .error .zodError
  | .zarray elem, .jarr a => do
      let a' ← zparseArr elem a
      .ok (.jarr a')
  | .zarray _, _ => .error .zodError
  | .zoptional inner, v => zparse inner v
  | .znullable _, .jnull => .ok .jnull
  | .znullable inner, v => zparse inner v
  | .zdefault inner _, v => zparse inner v
  | .zunion opts, v => zparseFirst opts v
  | .zdiscUnion opts, v => zparseFirst opts v
  | .zintersection l r, v => do
      let vl ← zparse l v
      let vr ← zparse r v
      if vl = vr then .ok vl else .error .zodError
  | .zrecord value, .jobj o => do
      let o' ← zparseRecord value o
      .ok (.jobj o')
  | .zrecord _, _ => .error .zodError
  | .zmap _ _, _ => .error .zodError
  | .ztuple items, .jarr a => do
      let a' ← zparseTuple items a
      .ok (.jarr a')
  | .ztuple _, _ => .error .zodError
  | .zeffects inner, v => zparse inner v
  | .zpipeline pin pout, v => do
      let r ← zparse pin v
      zparse pout r
  | .zlazy inner, v => zparse inner v
  termination_by s v => (sizeOf s, sizeOf v)
def zparseFields : ZFields → JObj → Except Err JObj
  | .fnil, _ => .ok .onil
  | .fcons name s rest, o =>
    match o.lookup name with
    | some v => do
        let r ← zparse s v
        let rest' ← zparseFields rest o
        .ok (.ocons name r rest')
    | none =>
      match s with
      | .zoptional _ => zparseFields rest o
      | .zdefault _ dflt => do
          let rest' ← zparseFields rest o
          .ok (.ocons name dflt rest')
      | _ => .error .zodError
  termination_by f o => (sizeOf f, sizeOf o)
def zparseArr : ZSchema → JArr → Except Err JArr
  | _, .anil => .ok .anil
  | s, .acons v rest => do
      let v' ← zparse s v
      let rest' ← zparseArr s rest
      .ok (.acons v' rest')
  termination_by s a => (sizeOf s, sizeOf a)
def zparseRecord : ZSchema → JObj → Except Err JObj
  | _, .onil => .ok .onil
  | s, .ocons k v rest => do
      let v' ← zparse s v
      let rest' ← zparseRecord s rest
      .ok (.ocons k v' rest')
  termination_by s o => (sizeOf s, sizeOf o)
def zparseTuple : ZList → JArr → Except Err JArr
  | .lnil, .anil => .ok .anil
  | .lcons s srest, .acons v vrest => do
      let v' ← zparse s v
      let rest' ← zparseTuple srest vrest
      .ok (.acons v' rest')
  | _, _ => .error .zodError
  termination_by items a => (sizeOf items, sizeOf a)
def zparseFirst : ZList → JVal → Except Err JVal
  | .lnil, _ => .error .zodError
  | .lcons s rest, v =>
    match zparse s v with
    | .ok r => .ok r
    | .error _ => zparseFirst rest v
  termination_by opts v => (sizeOf opts, sizeOf v)
end

/-! ## Wire descriptors and the Zod-to-protobuf converter

`zodToProtobuf` from `src/packages/core/src/protobuf/converter.ts`: field
number 1 is the reserved `uint32` version field, user fields start at 2,
nested messages number their fields from 1.  Nested message and enum types
are represented inline rather than by name (the named-root indirection of
protobufjs carries no information once the descriptor is built). -/

inductive PbRule where
  | plain
  | ropt
  | rrep
  | rmap
  deriving DecidableEq

mutual
inductive PbType where
  | pstring
  | pbool
  | puint32
  | pmessage (fields : PbFields)
  deriving DecidableEq
inductive PbFields where
  | fnil
  | fcons (name : String) (number : Nat) (rule : PbRule) (typ : PbType)
      (rest : PbFields)
  deriving DecidableEq
end

/-- The `while (schema instanceof ZodEffects)` unwrap loop. -/
def unwrapEffects : ZSchema → ZSchema
  | .zeffects inner => unwrapEffects inner
  | s => s

mutual
/-- `zodTypeToProtobufType`: maps a Zod type to its wire type. -/
def zodTypeToType : ZSchema → Except Err PbType
  | .zeffects inner => zodTypeToType inner
  | .zoptional t => zodTypeToType t
  | .znullable t => zodTypeToType t
  | .zstring => .ok .pstring
  | .zbool => .ok .pbool
  | .zarray elem => zodTypeToType elem
  | .zobject fields => do
      let f ← convertFields fields 1
      .ok (.pmessage f)
  | .zrecord value => zodTypeToType value
  | .zdefault inner _ => zodTypeToType inner
  | .zunion (.lcons s _) => zodTypeToType s
  | _ => .error (.generic "Unsupported Zod type")
  termination_by s => (sizeOf s, 0)
/-- `convertZodTypeToProtobufField`, step 1: unwrap effects, then at most one
optional wrapper. -/
def convertField : ZSchema → Except Err (PbRule × PbType)
  | .zeffects inner => convertField inner
  | .zoptional t => convertFieldNullable true t
  | s => convertFieldNullable false s
  termination_by s => (sizeOf s, 3)
/-- Step 2: unwrap at most one nullable wrapper (nullable is treated as
optional). -/
def convertFieldNullable : Bool → ZSchema → Except Err (PbRule × PbType)
  | _, .znullable t => convertFieldCore true t
  | isOpt, s => convertFieldCore isOpt s
  termination_by _ s => (sizeOf s, 2)
/-- Step 3: map fields for records, repeated for arrays, else scalar/message
with the optional rule when flagged. -/
def convertFieldCore : Bool → ZSchema → Except Err (PbRule × PbType)
  | _, .zrecord value => do
      let vt ← zodTypeToType value
      .ok (.rmap, vt)
  | isOpt, s => do
      let t ← zodTypeToType s
      let isRep := match s with
        | .zarray _ => true
        | _ => false
      .ok (if isRep then .rrep else if isOpt then .ropt else .plain, t)
  termination_by _ s => (sizeOf s, 1)
def convertFields : ZFields → Nat → Except Err PbFields
  | .fnil, _ => .ok .fnil
  | .fcons name s rest, number => do
      let (rule, typ) ← convertField s
      let rest' ← convertFields rest (number + 1)
      .ok (.fcons name number rule typ rest')
  termination_by f _ => (sizeOf f, 0)
end

/-- `zodToProtobuf`: the full descriptor of the top-level message, version
field first.  Returns the message's field list. -/
def zodToProtobuf (schema : ZSchema) : Except Err PbFields :=
  match unwrapEffects schema with
  | .zobject fields => do
      let ufields ← convertFields fields 2
      .ok (.fcons reservedField 1 .ropt .puint32 ufields)
  | _ => .error (.generic "Root schema must be a ZodObject")

/-! ## JavaScript coercions used by `pbType.fromObject`

protobufjs converts plain-object fields to typed message fields with the JS
coercions `String(v)`, `Boolean(v)` and `v >>> 0`. -/

mutual
def jsToString : JVal → String
  | .jstr s => s
  | .jbool true => "true"
  | .jbool false => "false"
  | .jnum n => toString n
  | .jnull => "null"
  | .jobj _ => "[object Object]"
  | .jarr a => jsArrString a
  termination_by v => (sizeOf v, 0)
def jsArrString : JArr → String
  | .anil => ""
  | .acons v .anil => jsElemString v
  | .acons v rest => jsElemString v ++ "," ++ jsArrString rest
  termination_by a => (sizeOf a, 1)
def jsElemString : JVal → String
  | .jnull => ""
  | v => jsToString v
  termination_by v => (sizeOf v, 1)
end

def jsTruthy : JVal → Bool
  | .jstr s => !(s == "")
  | .jbool b => b
  | .jnum n => !(n == 0)
  | .jnull => false
  | .jarr _ => true
  | .jobj _ => true

/-- JS `>>> 0` (ToUint32) on an integral number — this is what protobufjs
applies to a `uint32` field value. -/
def jsToUint32 : JVal → Nat
  | .jnum n => (n % 4294967296).toNat
  | .jbool true => 1
  | .jbool false => 0
  | _ => 0

/-! ## `pbType.fromObject` — plain object to typed message

Generated per descriptor field, in declaration order: scalar and message
fields are taken when `!= null`; repeated and map fields when truthy, and
must be arrays / objects respectively. -/

mutual
def fromObject : PbFields → JObj → Except Err PbMsg
  | .fnil, _ => .ok .mnil
  | .fcons name _ rule typ rest, data =>
    match rule with
    | .rrep =>
      match data.lookup name with
      | none => fromObject rest data
      | some v =>
        if jsTruthy v then
          match v with
          | .jarr a => do
              let elems ← fromArr name typ a
              let msg ← fromObject rest data
              .ok (.mcons name (.varr elems) msg)
          | _ => .error (.generic (name ++ ": array expected"))
        else fromObject rest data
    | .rmap =>
      match data.lookup name with
      | none => fromObject rest data
      | some v =>
        if jsTruthy v then
          match v with
          | .jobj o => do
              let entries ← fromMap name typ o
              let msg ← fromObject rest data
              .ok (.mcons name (.vmsg entries) msg)
          | _ => .error (.generic (name ++ ": object expected"))
        else fromObject rest data
    | _ =>
      match data.lookup name with
      | none => fromObject rest data
      | some .jnull => fromObject rest data
      | some v => do
          let pv ← fromScalar name typ v
          let msg ← fromObject rest data
          .ok (.mcons name pv msg)
  termination_by f data => (sizeOf f, sizeOf data)
def fromScalar : String → PbType → JVal → Except Err PbVal
  | _, .pstring, v => .ok (.vstr (jsToString v))
  | _, .pbool, v => .ok (.vbool (jsTruthy v))
  | _, .puint32, v => .ok (.vuint (jsToUint32 v))
  | _, .pmessage f, .jobj o => do
      let m ← fromObject f o
      .ok (.vmsg m)
  | name, .pmessage _, _ => .error (.generic (name ++ ": object expected"))
  termination_by _ t v => (sizeOf t, sizeOf v)
def fromArr : String → PbType → JArr → Except Err PbArr
  | _, _, .anil => .ok .pnil
  | name, typ, .acons v rest => do
      let pv ← fromScalar name typ v
      let rest' ← fromArr name typ rest
      .ok (.pcons pv rest')
  termination_by _ t a => (sizeOf t, sizeOf a)
def fromMap : String → PbType → JObj → Except Err PbMsg
  | _, _, .onil => .ok .mnil
  | name, typ, .ocons k v rest => do
      let pv ← fromScalar name typ v
      let rest' ← fromMap name typ rest
      .ok (.mcons k pv rest')
  termination_by _ t o => (sizeOf t, sizeOf o)
end

/-! ## `pbType.toObject` — typed message to plain object

With the options used by the decoder (`defaults: false, arrays: true,
objects: true, longs: Number, enums: String`): absent scalar fields are
omitted, absent repeated / map fields become `[]` / `{}`, fields are emitted
in descriptor order. -/

mutual
def toObject : PbFields → PbMsg → JObj
  | .fnil, _ => .onil
  | .fcons name _ rule typ rest, msg =>
    match rule with
    | .rrep =>
      match msg.lookup name with
      | some (.varr a) => .ocons name (.jarr (toArr typ a)) (toObject rest msg)
      | _ => .ocons name (.jarr .anil) (toObject rest msg)
    | .rmap =>
      match msg.lookup name with
      | some (.vmsg m) => .ocons name (.jobj (toMapObj typ m)) (toObject rest msg)
      | _ => .ocons name (.jobj .onil) (toObject rest msg)
    | _ =>
      match msg.lookup name with
      | some pv => .ocons name (toScalar typ pv) (toObject rest msg)
      | none => toObject rest msg
  termination_by f msg => (sizeOf f, sizeOf msg)
def toScalar : PbType → PbVal → JVal
  | .pstring, .vstr s => .jstr s
  | .pbool, .vbool b => .jbool b
  | .puint32, .vuint n => .jnum n
  | .pmessage f, .vmsg m => .jobj (toObject f m)
  | _, _ => .jnull
  termination_by t v => (sizeOf t, sizeOf v)
def toArr : PbType → PbArr → JArr
  | _, .pnil => .anil
  | typ, .pcons v rest => .acons (toScalar typ v) (toArr typ rest)
  termination_by t a => (sizeOf t, sizeOf a)
def toMapObj : PbType → PbMsg → JObj
  | _, .mnil => .onil
  | typ, .mcons k v rest => .ocons k (toScalar typ v) (toMapObj typ rest)
  termination_by t m => (sizeOf t, sizeOf m)
end

/-! ## Compression backend

`compress`/`decompress` delegate to an external DEFLATE implementation
(`zlib` on Node, `pako` in the browser).  The pipeline is parameterized over
the backend; theorems assume the backend round-trips and stays within byte
range, which any correct DEFLATE implementation satisfies.  A small concrete
backend witnesses the hypotheses. -/

structure Zlib where
  deflate : List Nat → List Nat
  inflate : List Nat → Except Unit (List Nat)

def zlibOk (z : Zlib) : Prop :=
  (∀ b, z.inflate (z.deflate b) = .ok b) ∧
  (∀ b, (∀ x ∈ b, x < 256) → ∀ x ∈ z.deflate b, x < 256)

/-- Concrete backend: one four-byte input has a shorter compressed form, every
other input grows by a one-byte prefix. -/
def toyDeflate (b : List Nat) : List Nat :=
  if b = [0, 0, 0, 0] then [7] else 0 :: b

def toyInflate : List Nat → Except Unit (List Nat)
  | [7] => .ok [0, 0, 0, 0]
  | 0 :: rest => .ok rest
  | _ => .error ()

def toyZlib : Zlib := ⟨toyDeflate, toyInflate⟩

theorem toyZlib_ok : zlibOk toyZlib := by
  constructor
  · intro b
    show toyInflate (toyDeflate b) = .ok b
    unfold toyDeflate
    by_cases h : b = [0, 0, 0, 0]
    · simp [h, toyInflate]
    · simp [h, toyInflate]
  · intro b hb x hx
    have hx' : x ∈ toyDeflate b := hx
    unfold toyDeflate at hx'
    clear hx
    rename' hx' => hx
    split at hx
    · simp at hx; omega
    · rcases List.mem_cons.mp hx with h | h
      · omega
      · exact hb x h

/-! ## The encode/decode orchestrator

`encodeInternal` from `src/packages/core/src/encoder.ts` and
`decodeInternal`/`decodeWithVersion` from `src/packages/core/src/decoder.ts`. -/

/-- `{ ...validated, [RESERVED_FIELD]: version }`: spread keeps the original
key order and adds the new key at the end. -/
def appendField : JObj → String → JVal → JObj
  | .onil, k, v => .ocons k v .onil
  | .ocons k' v' rest, k, v => .ocons k' v' (appendField rest k v)

def encodeInternal (z : Zlib) (data : JVal) (schema : ZSchema)
    (version : Int) : Except Err (List Char) := do
  validateSchema schema
  let validated ← zparse schema data
  match validated with
  | .jobj vobj =>
    let withVersion : JObj :=
      if version = 1 then vobj
      else appendField vobj reservedField (.jnum version)
    let fields ← zodToProtobuf schema
    let message ← fromObject fields withVersion
    let binary := serV (.vmsg message)
    let compressed := z.deflate binary
    let finalBinary :=
      if compressed.length < binary.length then 1 :: compressed
      else 0 :: binary
    .ok (encodeBase64Url finalBinary)
  | _ => .error (.validation
      "Encoded data must be an object. Root schema must be z.object({})")

/-- The public `encode` entry point (throwing mode; `safeParse` merely wraps
the same computation in a result object). -/
def encode (z : Zlib) (data : JVal) (schema : ZSchema) (version : Int) :
    Except Err (List Char) :=
  encodeInternal z data schema version

def typeofStr : JVal → String
  | .jstr _ => "string"
  | .jbool _ => "boolean"
  | .jnum _ => "number"
  | .jnull => "object"
  | .jarr _ => "object"
  | .jobj _ => "object"

/-- Steps 3–6 of `decodeInternal`: wire decode, version extraction, Zod
validation — everything after the compression-marker branch. -/
def decodeBinary (schema : ZSchema) (binary : List Nat) :
    Except Err (JVal × Int) := do
  let fields ← zodToProtobuf schema
  let message ← match pbDecode binary with
    | some (.vmsg m) => pure m
    | _ => Except.error (Err.decoding "Failed to decode protobuf message")
  let decodedObj := toObject fields message
  match decodedObj.lookup reservedField with
  | some (.jnum n) =>
    let rest := decodedObj.removeKey reservedField
    let validated ← zparse schema (.jobj rest)
    .ok (validated, n)
  | some v => .error (.decoding ("Invalid version field: " ++ reservedField ++
      ". Expected number, got " ++ typeofStr v))
  | none => do
    let validated ← zparse schema (.jobj decodedObj)
    .ok (validated, 1)

def decodeInternal (z : Zlib) (encoded : List Char) (schema : ZSchema) :
    Except Err (JVal × Int) := do
  validateSchema schema
  let dataWithMarker := decodeBase64Url encoded
  let binary ← match dataWithMarker with
    | 1 :: payload =>
      (z.inflate payload).mapError fun _ => Err.compression "Decompression failed"
    | 0 :: payload => pure payload
    | m :: _ => Except.error (Err.decoding
        ("Invalid compression marker: " ++ toString m ++ ". Expected 0x00 or 0x01"))
    | [] => Except.error (Err.decoding
        "Invalid compression marker: undefined. Expected 0x00 or 0x01")
  decodeBinary schema binary

def decode (z : Zlib) (encoded : List Char) (schema : ZSchema) :
    Except Err JVal :=
  (decodeInternal z encoded schema).map (·.1)

def decodeWithVersion (z : Zlib) (encoded : List Char) (schema : ZSchema) :
    Except Err (JVal × Int) :=
  decodeInternal z encoded schema

/-! ## The migration engine (`src/packages/core/src/migrations.ts`) -/

structure Migration where
  up : JVal → JVal
  down : JVal → JVal

def missingUpMsg (v cur tgt : Int) : String :=
  "Missing migration from version " ++ toString v ++ " to " ++ toString (v + 1)
    ++ ". Cannot upgrade from v" ++ toString cur ++ " to v" ++ toString tgt ++ "."

def missingDownMsg (v cur tgt : Int) : String :=
  "Missing migration from version " ++ toString v ++ " to " ++ toString (v - 1)
    ++ ". Cannot downgrade from v" ++ toString cur ++ " to v" ++ toString tgt ++ "."

/-- The upgrade loop: `for (let v = currentVersion; v < targetVersion; v++)`
applying `migrations[v - 1].up`. -/
def upLoop (migs : List Migration) (cur tgt : Int) (v : Int) (data : JVal) :
    Except Err JVal :=
  if _h : v < tgt then
    let idx : Int := v - 1
    if h2 : idx < 0 ∨ (migs.length : Int) ≤ idx then
      .error (.versionMismatch (missingUpMsg v cur tgt))
    else
      upLoop migs cur tgt (v + 1) ((migs.get ⟨idx.toNat, by omega⟩).up data)
  else .ok data
termination_by (tgt - v).toNat
decreasing_by omega

/-- The downgrade loop: `for (let v = currentVersion; v > targetVersion; v--)`
applying `migrations[v - 2].down`. -/
def downLoop (migs : List Migration) (cur tgt : Int) (v : Int) (data : JVal) :
    Except Err JVal :=
  if _h : tgt < v then
    let idx : Int := v - 2
    if h2 : idx < 0 ∨ (migs.length : Int) ≤ idx then
      .error (.versionMismatch (missingDownMsg v cur tgt))
    else
      downLoop migs cur tgt (v - 1) ((migs.get ⟨idx.toNat, by omega⟩).down data)
  else .ok data
termination_by (v - tgt).toNat
decreasing_by omega

def applyMigrations (z : Zlib) (encoded : List Char)
    (sourceSchema targetSchema : ZSchema) (targetVersion : Int)
    (migrations : List Migration) : Except Err (List Char) := do
  let (decoded, currentVersion) ← decodeWithVersion z encoded sourceSchema
  if currentVersion = targetVersion then
    encode z decoded targetSchema targetVersion
  else if currentVersion < targetVersion then do
    let data ← upLoop migrations currentVersion targetVersion currentVersion decoded
    encode z data targetSchema targetVersion
  else do
    let data ← downLoop migrations currentVersion targetVersion currentVersion decoded
    encode z data targetSchema targetVersion

/-- `getVersion`: catch-all, defaulting to version 1 on any decode failure. -/
def getVersion (z : Zlib) (encoded : List Char) (schema : ZSchema) : Int :=
  match decodeWithVersion z encoded schema with
  | .ok (_, version) => version
  | .error _ => 1

/-! ## The 2-byte framing header (`src/packages/core/src/format.ts`) -/

structure HeaderFlags where
  compressed : Bool
  stringDictionary : Bool
  booleanPacking : Bool
  deriving DecidableEq

structure HeaderResult where
  version : Nat
  compressed : Bool
  stringDictionary : Bool
  booleanPacking : Bool
  payload : List Nat
  deriving DecidableEq

/-- `encodeWithHeader`: byte 0 = version bits 0–5 and the compressed flag at
bit 6; byte 1 = version bits 6–9 and the optimization flags at bits 4–5. -/
def encodeWithHeader (payload : List Nat) (version : Int) (flags : HeaderFlags) :
    Except Err (List Nat) :=
  if version < 0 ∨ 1023 < version then .error (.generic "Version must be 0-1023")
  else
    let v := version.toNat
    let byte0 := v % 64 + (if flags.compressed then 64 else 0)
    let byte1 := v / 64 % 16 + (if flags.stringDictionary then 16 else 0) +
      (if flags.booleanPacking then 32 else 0)
    .ok (byte0 :: byte1 :: payload)

/-- `decodeWithHeader`: rejects inputs shorter than the 2-byte header. -/
def decodeWithHeader (encoded : List Nat) : Except Err HeaderResult :=
  match encoded with
  | b0 :: b1 :: payload =>
    .ok { version := b0 % 64 + b1 % 16 * 64,
          compressed := b0 / 64 % 2 == 1,
          stringDictionary := b1 / 16 % 2 == 1,
          booleanPacking := b1 / 32 % 2 == 1,
          payload := payload }
  | _ => .error (.generic "Encoded data too short - missing header")

/-! ## Boolean bit-packing
(`src/packages/core/src/optimizations/boolean-packing.ts`) -/

/-- One byte of up to 8 booleans, LSB-first: bit `i` of the result is the
`i`-th list element. -/
def packByte : List Bool → Nat
  | [] => 0
  | b :: rest => (if b then 1 else 0) + 2 * packByte rest

/-- `packBooleans`: 8 values per byte, LSB-first. -/
def packBooleans : List Bool → List Nat
  | [] => []
  | v :: rest =>
    packByte ((v :: rest).take 8) :: packBooleans ((v :: rest).drop 8)
termination_by values => values.length
decreasing_by simp; omega

/-- `unpackBooleans`: bit `i % 8` of byte `i / 8`, `false` past the end. -/
def unpackBooleans (bytes : List Nat) (count : Nat) : List Bool :=
  (List.range count).map fun i =>
    match bytes[i / 8]? with
    | some byte => byte / 2 ^ (i % 8) % 2 == 1
    | none => false

/-! ## Properties of boolean packing -/

theorem packByte_bit (bits : List Bool) (i : Nat) (h : i < bits.length) :
    packByte bits / 2 ^ i % 2 = if bits.get ⟨i, h⟩ then 1 else 0 := by
  induction bits generalizing i with
  | nil => simp at h
  | cons b rest ih =>
    cases i with
    | zero =>
      simp only [pow_zero, Nat.div_one, List.get]
      have hk := packByte rest
      simp only [packByte]
      cases b <;> simp <;> omega
    | succ i =>
      have hlen : i < rest.length := by simpa using h
      have h2 : packByte (b :: rest) / 2 = packByte rest := by
        simp only [packByte]
        cases b <;> simp <;> omega
      have step : packByte (b :: rest) / 2 ^ (i + 1) = packByte rest / 2 ^ i := by
        rw [pow_succ, mul_comm, ← Nat.div_div_eq_div_mul, h2]
      rw [step, ih i hlen]
      simp [List.get]

theorem packBooleans_getElem (j : Nat) (vs : List Bool) :
    (packBooleans vs)[j]? = if 8 * j < vs.length then
      some (packByte ((vs.drop (8 * j)).take 8)) else none := by
  induction j generalizing vs with
  | zero =>
    cases vs with
    | nil => simp [packBooleans]
    | cons v rest => simp [packBooleans]
  | succ j ih =>
    cases vs with
    | nil => simp [packBooleans]
    | cons v rest =>
      rw [packBooleans]
      simp only [List.getElem?_cons_succ]
      rw [ih]
      have hd : ((v :: rest).drop 8).drop (8 * j) =
          (v :: rest).drop (8 * (j + 1)) := by
        rw [List.drop_drop]
        congr 1
        omega
      rw [hd]
      simp only [List.length_drop, List.length_cons]
      split_ifs with h1 h2 h2
      · rfl
      · omega
      · omega
      · rfl

theorem unpackBooleans_packBooleans (vs : List Bool) :
    unpackBooleans (packBooleans vs) vs.length = vs := by
  unfold unpackBooleans
  apply List.ext_getElem
  · simp
  intro i h1 h2
  simp only [List.getElem_map, List.getElem_range]
  rw [packBooleans_getElem]
  rw [if_pos (by omega : 8 * (i / 8) < vs.length)]
  have hlen : i % 8 < ((vs.drop (8 * (i / 8))).take 8).length := by
    simp only [List.length_take, List.length_drop]
    omega
  simp only []
  rw [packByte_bit _ (i % 8) hlen]
  have hget : ((vs.drop (8 * (i / 8))).take 8).get ⟨i % 8, hlen⟩ = vs[i] := by
    simp only [List.get_eq_getElem, List.getElem_take, List.getElem_drop]
    congr 1
    omega
  rw [hget]
  cases h : vs[i] <;> simp [h]

/-- C9: `packBooleans` packs 8 booleans per byte LSB-first — the sequence
`[true,false,true,true,false,false,true,false]` packs to the single byte
`0b01001101` — and `unpackBooleans` applied to the packed bytes at the
original length reproduces any boolean list exactly. -/
theorem packBooleans_spec :
    packBooleans [true, false, true, true, false, false, true, false] =
      [0b01001101] ∧
    ∀ vs : List Bool, unpackBooleans (packBooleans vs) vs.length = vs := by
  constructor
  · simp [packBooleans, packByte]
  · exact unpackBooleans_packBooleans

/-! ## Properties of the framing header -/

/-- C8: framing round-trip — for every payload, every version in 0–1023 and
every combination of the compressed / stringDictionary / booleanPacking
flags, `decodeWithHeader` recovers from `encodeWithHeader`'s output exactly
the version, all three flags, and the payload bytes. -/
theorem header_bytes_recover (v : Nat) (hc hsd hbp : Bool) (hv : v ≤ 1023) :
    (v % 64 + (if hc then 64 else 0)) % 64 +
      (v / 64 % 16 + (if hsd then 16 else 0) + (if hbp then 32 else 0)) % 16 * 64
        = v ∧
    ((v % 64 + (if hc then 64 else 0)) / 64 % 2 == 1) = hc ∧
    ((v / 64 % 16 + (if hsd then 16 else 0) + (if hbp then 32 else 0)) / 16 % 2
      == 1) = hsd ∧
    ((v / 64 % 16 + (if hsd then 16 else 0) + (if hbp then 32 else 0)) / 32 % 2
      == 1) = hbp := by
  cases hc <;> cases hsd <;> cases hbp <;>
    refine ⟨?_, ?_, ?_, ?_⟩ <;>
    simp <;>
    omega

theorem decodeWithHeader_encodeWithHeader (payload : List Nat) (version : Int)
    (flags : HeaderFlags) (h0 : 0 ≤ version) (h1 : version ≤ 1023) :
    ∃ enc, encodeWithHeader payload version flags = .ok enc ∧
      decodeWithHeader enc = .ok ⟨version.toNat, flags.compressed,
        flags.stringDictionary, flags.booleanPacking, payload⟩ := by
  obtain ⟨c, sd, bp⟩ := flags
  unfold encodeWithHeader
  rw [if_neg (by omega)]
  refine ⟨_, rfl, ?_⟩
  unfold decodeWithHeader
  have hv : version.toNat ≤ 1023 := by omega
  obtain ⟨e1, e2, e3, e4⟩ := header_bytes_recover version.toNat c sd bp hv
  simp only [Except.ok.injEq, HeaderResult.mk.injEq]
  exact ⟨e1, e2, e3, e4, trivial⟩

theorem encodeWithHeader_out_of_range (payload : List Nat) (version : Int)
    (flags : HeaderFlags) (h : version < 0 ∨ 1023 < version) :
    encodeWithHeader payload version flags =
      .error (.generic "Version must be 0-1023") := by
  unfold encodeWithHeader
  rw [if_pos h]

/-- C4 (amended): the framing operation `encodeWithHeader` rejects every
version outside 0–1023 — in particular 1024 and −1 — with a fatal error, for
every payload and flag combination.  The public `encode` entry point performs
no version-range check (see the counterexample theorem). -/
theorem encodeWithHeader_rejects_out_of_range (payload : List Nat)
    (version : Int) (flags : HeaderFlags) (h : version < 0 ∨ 1023 < version) :
    encodeWithHeader payload version flags =
      .error (.generic "Version must be 0-1023") :=
  encodeWithHeader_out_of_range payload version flags h

theorem encodeWithHeader_rejects_out_of_range_witness :
    encodeWithHeader [1, 2] 1024 ⟨false, false, false⟩ =
      .error (.generic "Version must be 0-1023") ∧
    encodeWithHeader [1, 2] (-1) ⟨true, true, true⟩ =
      .error (.generic "Version must be 0-1023") :=
  ⟨encodeWithHeader_rejects_out_of_range [1, 2] 1024 ⟨false, false, false⟩
      (by decide),
    encodeWithHeader_rejects_out_of_range [1, 2] (-1) ⟨true, true, true⟩
      (by decide)⟩

/-! ## Concrete example schema and value, used by several claims -/

/-- `z.object({ a: z.boolean() })`. -/
def exSchema : ZSchema := .zobject (.fcons "a" .zbool .fnil)

/-- `{ a: true }`. -/
def exValue : JVal := .jobj (.ocons "a" (.jbool true) .onil)

/-! ## Properties of `getVersion` -/

/-- C10: `getVersion` is total (it is a function, not a partial computation)
and returns the default version 1 whenever the underlying decode fails for
any reason, and the decoded version when it succeeds. -/
theorem getVersion_never_throws (z : Zlib) (encoded : List Char)
    (schema : ZSchema) :
    (∀ err, decodeWithVersion z encoded schema = .error err →
      getVersion z encoded schema = 1) ∧
    (∀ d v, decodeWithVersion z encoded schema = .ok (d, v) →
      getVersion z encoded schema = v) := by
  constructor
  · intro err h
    unfold getVersion
    rw [h]
  · intro d v h
    unfold getVersion
    rw [h]

/-- A schema that uses the reserved version field. -/
def resSchema : ZSchema :=
  .zobject (.fcons "_encodedStateVersion" .zbool .fnil)

theorem getVersion_never_throws_witness :
    getVersion toyZlib "x".data resSchema = 1 :=
  (getVersion_never_throws toyZlib "x".data resSchema).1
    (.validation
      "Field name \"_encodedStateVersion\" is reserved and cannot be used in schemas")
    (by simp [decodeWithVersion, decodeInternal, validateSchema,
      hasReservedField, hasReservedKey, hasReservedInFields, reservedField,
      resSchema, Bind.bind, Except.bind])

/-! ## Properties of the migration engine -/

theorem upLoop_missing (migs : List Migration) (cur tgt v : Int) (data : JVal)
    (hlt : v < tgt) (hmiss : v ≤ 0 ∨ (migs.length : Int) + 1 < tgt) :
    upLoop migs cur tgt v data = .error (.versionMismatch (missingUpMsg
      (if v ≤ 0 ∨ (migs.length : Int) < v then v else (migs.length : Int) + 1)
      cur tgt)) := by
  rw [upLoop, dif_pos hlt]
  by_cases h2 : (v - 1 : Int) < 0 ∨ (migs.length : Int) ≤ v - 1
  · rw [dif_pos h2]
    rw [if_pos (by omega)]
  · rw [dif_neg h2]
    have hAB : (if v + 1 ≤ 0 ∨ (migs.length : Int) < v + 1 then v + 1
          else (migs.length : Int) + 1) =
        (if v ≤ 0 ∨ (migs.length : Int) < v then v
          else (migs.length : Int) + 1) := by
      split_ifs <;> omega
    rw [upLoop_missing migs cur tgt (v + 1) _ (by omega) (by omega), hAB]
termination_by (tgt - v).toNat
decreasing_by omega

theorem downLoop_missing (migs : List Migration) (cur tgt v : Int) (data : JVal)
    (hlt : tgt < v) (hmiss : (migs.length : Int) + 1 < v ∨ tgt ≤ 0) :
    downLoop migs cur tgt v data = .error (.versionMismatch (missingDownMsg
      (if (migs.length : Int) + 1 < v ∨ v ≤ 1 then v else 1) cur tgt)) := by
  rw [downLoop, dif_pos hlt]
  by_cases h2 : (v - 2 : Int) < 0 ∨ (migs.length : Int) ≤ v - 2
  · rw [dif_pos h2]
    rw [if_pos (by omega)]
  · rw [dif_neg h2]
    have hAB : (if (migs.length : Int) + 1 < v - 1 ∨ v - 1 ≤ 1 then v - 1
          else 1) =
        (if (migs.length : Int) + 1 < v ∨ v ≤ 1 then v else 1) := by
      split_ifs <;> omega
    rw [downLoop_missing migs cur tgt (v - 1) _ (by omega) (by omega), hAB]
termination_by (v - tgt).toNat
decreasing_by omega

/-- C3: whenever a required migration hop is absent, `applyMigrations` fails
with a typed `VersionMismatchError` whose message names the exact missing
version pair (the first hop, walking from the current version towards the
target, whose migration is not supplied) — it never skips or defaults the
hop.  Upgrade and downgrade directions are both covered. -/
theorem applyMigrations_missing_hop (z : Zlib) (enc : List Char)
    (srcS tgtS : ZSchema) (tgtV : Int) (migs : List Migration) (data : JVal)
    (cur : Int) (hdec : decodeWithVersion z enc srcS = .ok (data, cur)) :
    (cur < tgtV → cur ≤ 0 ∨ (migs.length : Int) + 1 < tgtV →
      applyMigrations z enc srcS tgtS tgtV migs = .error (.versionMismatch
        (missingUpMsg (if cur ≤ 0 ∨ (migs.length : Int) < cur then cur
          else (migs.length : Int) + 1) cur tgtV))) ∧
    (tgtV < cur → (migs.length : Int) + 1 < cur ∨ tgtV ≤ 0 →
      applyMigrations z enc srcS tgtS tgtV migs = .error (.versionMismatch
        (missingDownMsg (if (migs.length : Int) + 1 < cur ∨ cur ≤ 1 then cur
          else 1) cur tgtV))) := by
  constructor
  · intro hlt hmiss
    unfold applyMigrations
    rw [hdec]
    simp only [Bind.bind, Except.bind]
    rw [if_neg (by omega : ¬ cur = tgtV), if_pos hlt]
    rw [upLoop_missing migs cur tgtV cur data hlt hmiss]
  · intro hlt hmiss
    unfold applyMigrations
    rw [hdec]
    simp only [Bind.bind, Except.bind]
    rw [if_neg (by omega : ¬ cur = tgtV), if_neg (by omega : ¬ cur < tgtV)]
    rw [downLoop_missing migs cur tgtV cur data hlt hmiss]

/-! ## The migration chain as an explicit function sequence -/

/-- The versions the upgrade loop visits: `cur, cur+1, …, tgt-1`. -/
def upVersions (cur tgt : Int) : List Int :=
  (List.range (tgt - cur).toNat).map fun (i : Nat) => cur + Int.ofNat i

/-- Applying `migrations[v-1].up` for each listed `v`, left to right. -/
def applyUps (migs : List Migration) (data : JVal) (vs : List Int) : JVal :=
  vs.foldl (fun d v => (migs.getD (v - 1).toNat ⟨id, id⟩).up d) data

/-- The versions the downgrade loop visits: `cur, cur-1, …, tgt+1`. -/
def downVersions (cur tgt : Int) : List Int :=
  (List.range (cur - tgt).toNat).map fun (i : Nat) => cur - Int.ofNat i

/-- Applying `migrations[v-2].down` for each listed `v`, left to right. -/
def applyDowns (migs : List Migration) (data : JVal) (vs : List Int) : JVal :=
  vs.foldl (fun d v => (migs.getD (v - 2).toNat ⟨id, id⟩).down d) data

theorem upVersions_cons (v tgt : Int) (h : v < tgt) :
    upVersions v tgt = v :: upVersions (v + 1) tgt := by
  unfold upVersions
  rw [show (tgt - v).toNat = (tgt - (v + 1)).toNat + 1 from by omega,
    List.range_succ_eq_map]
  rw [List.map_cons, List.map_map]
  congr 1
  · simp
  apply List.map_congr_left
  intro i _
  simp only [Function.comp_apply, Int.ofNat_eq_natCast]
  push_cast
  ring

theorem upVersions_nil (v tgt : Int) (h : ¬ v < tgt) : upVersions v tgt = [] := by
  unfold upVersions
  rw [show (tgt - v).toNat = 0 from by omega]
  rfl

theorem downVersions_cons (v tgt : Int) (h : tgt < v) :
    downVersions v tgt = v :: downVersions (v - 1) tgt := by
  unfold downVersions
  rw [show (v - tgt).toNat = (v - 1 - tgt).toNat + 1 from by omega,
    List.range_succ_eq_map]
  rw [List.map_cons, List.map_map]
  congr 1
  · simp
  apply List.map_congr_left
  intro i _
  simp only [Function.comp_apply, Int.ofNat_eq_natCast]
  push_cast
  ring

theorem downVersions_nil (v tgt : Int) (h : ¬ tgt < v) :
    downVersions v tgt = [] := by
  unfold downVersions
  rw [show (v - tgt).toNat = 0 from by omega]
  rfl

theorem upLoop_ok (migs : List Migration) (cur tgt v : Int) (data : JVal)
    (h1 : 1 ≤ v) (h2 : tgt ≤ (migs.length : Int) + 1) :
    upLoop migs cur tgt v data = .ok (applyUps migs data (upVersions v tgt)) := by
  by_cases hlt : v < tgt
  · rw [upLoop, dif_pos hlt, dif_neg (by omega)]
    rw [upLoop_ok migs cur tgt (v + 1) _ (by omega) h2]
    rw [upVersions_cons v tgt hlt]
    unfold applyUps
    simp only [List.foldl_cons]
    congr 2
    rw [List.getD_eq_getElem _ _ (by omega)]
    simp [List.get_eq_getElem]
  · rw [upLoop, dif_neg hlt, upVersions_nil v tgt hlt]
    rfl
termination_by (tgt - v).toNat
decreasing_by omega

theorem downLoop_ok (migs : List Migration) (cur tgt v : Int) (data : JVal)
    (h1 : 1 ≤ tgt) (h2 : v ≤ (migs.length : Int) + 1) :
    downLoop migs cur tgt v data =
      .ok (applyDowns migs data (downVersions v tgt)) := by
  by_cases hlt : tgt < v
  · rw [downLoop, dif_pos hlt, dif_neg (by omega)]
    rw [downLoop_ok migs cur tgt (v - 1) _ h1 (by omega)]
    rw [downVersions_cons v tgt hlt]
    unfold applyDowns
    simp only [List.foldl_cons]
    congr 2
    rw [List.getD_eq_getElem _ _ (by omega)]
    simp [List.get_eq_getElem]
  · rw [downLoop, dif_neg hlt, downVersions_nil v tgt hlt]
    rfl
termination_by (v - tgt).toNat
decreasing_by omega

/-- C2: with every required hop present, `applyMigrations` re-encodes, at the
target version and against the target schema, exactly the value obtained by
applying `migrations[v-1].up` for `v = current … target-1` in increasing
order (upgrade), or `migrations[v-2].down` for `v = current … target+1` in
decreasing order (downgrade); when the current version already equals the
target, no transform function is applied and the original decoded value is
re-encoded — and thereby re-validated — against the target schema. -/
theorem applyMigrations_chain (z : Zlib) (enc : List Char)
    (srcS tgtS : ZSchema) (tgtV : Int) (migs : List Migration) (data : JVal)
    (cur : Int) (hdec : decodeWithVersion z enc srcS = .ok (data, cur)) :
    (cur < tgtV → 1 ≤ cur → tgtV ≤ (migs.length : Int) + 1 →
      applyMigrations z enc srcS tgtS tgtV migs =
        encode z (applyUps migs data (upVersions cur tgtV)) tgtS tgtV) ∧
    (tgtV < cur → 1 ≤ tgtV → cur ≤ (migs.length : Int) + 1 →
      applyMigrations z enc srcS tgtS tgtV migs =
        encode z (applyDowns migs data (downVersions cur tgtV)) tgtS tgtV) ∧
    (cur = tgtV →
      applyMigrations z enc srcS tgtS tgtV migs = encode z data tgtS tgtV) := by
  refine ⟨?_, ?_, ?_⟩
  · intro hlt hc ht
    unfold applyMigrations
    rw [hdec]
    simp only [Bind.bind, Except.bind]
    rw [if_neg (by omega : ¬ cur = tgtV), if_pos hlt]
    rw [upLoop_ok migs cur tgtV cur data hc ht]
  · intro hlt ht hc
    unfold applyMigrations
    rw [hdec]
    simp only [Bind.bind, Except.bind]
    rw [if_neg (by omega : ¬ cur = tgtV), if_neg (by omega : ¬ cur < tgtV)]
    rw [downLoop_ok migs cur tgtV cur data ht hc]
  · intro heq
    unfold applyMigrations
    rw [hdec]
    simp only [Bind.bind, Except.bind]
    rw [if_pos heq]

/-- A migration used by the chain witness: `up` replaces the `a` field with
`false`, `down` restores `true`. -/
def exMigA : Migration :=
  ⟨fun _ => .jobj (.ocons "a" (.jbool false) .onil),
    fun _ => .jobj (.ocons "a" (.jbool true) .onil)⟩

/-- A second migration: `up` leaves the value unchanged. -/
def exMigB : Migration := ⟨id, id⟩

theorem decodeWithHeader_encodeWithHeader_witness :
    ∃ enc, encodeWithHeader [9, 8, 7] 777 ⟨true, false, true⟩ = .ok enc ∧
      decodeWithHeader enc = .ok ⟨777, true, false, true, [9, 8, 7]⟩ := by
  have h := decodeWithHeader_encodeWithHeader [9, 8, 7] 777 ⟨true, false, true⟩
    (by decide) (by decide)
  simpa using h

/-! ## Reserved-field rejection -/

/-- C7: any schema containing a field literally named
`_encodedStateVersion` at any nesting depth — through nested objects,
arrays, optionals, nullables, defaults, unions, discriminated unions,
intersections, records, maps, tuples, effects, pipelines and lazy schemas —
makes both `encode` and `decode` fail with the reserved-field
`ValidationError` before any encoding or decoding work: the error is
produced for every input value, every token, every version and every
compression backend. -/
theorem reserved_field_rejected (schema : ZSchema)
    (h : specContainsReserved schema = true) (z : Zlib) (data : JVal)
    (version : Int) (tok : List Char) :
    encodeInternal z data schema version = .error (.validation
      ("Field name \"" ++ reservedField ++
        "\" is reserved and cannot be used in schemas")) ∧
    decodeInternal z tok schema = .error (.validation
      ("Field name \"" ++ reservedField ++
        "\" is reserved and cannot be used in schemas")) := by
  have hres : hasReservedField schema = true := by
    rw [hasReservedField_eq_spec]
    exact h
  constructor
  · unfold encodeInternal validateSchema
    rw [hres]
    simp [Bind.bind, Except.bind]
  · unfold decodeInternal validateSchema
    rw [hres]
    simp [Bind.bind, Except.bind]

/-- A schema hiding the reserved field deep inside an optional union of a
tuple of a string-keyed map whose value is a lazy object. -/
def deepSchema : ZSchema :=
  .zobject (.fcons "u"
    (.zoptional (.zunion (.lcons
      (.ztuple (.lcons
        (.zmap .zstring (.zlazy (.zobject
          (.fcons "_encodedStateVersion" .zbool .fnil))))
        .lnil))
      .lnil)))
    .fnil)

theorem reserved_field_rejected_witness :
    encodeInternal toyZlib exValue deepSchema 1 = .error (.validation
      ("Field name \"" ++ reservedField ++
        "\" is reserved and cannot be used in schemas")) ∧
    decodeInternal toyZlib "x".data deepSchema = .error (.validation
      ("Field name \"" ++ reservedField ++
        "\" is reserved and cannot be used in schemas")) :=
  reserved_field_rejected deepSchema
    (by simp [deepSchema, specContainsReserved, specFieldsReserved,
      specListReserved, reservedField])
    toyZlib exValue 1 "x".data

/-! ## The adaptive compression marker -/

theorem exceptBind_ok {ε α β : Type} (x : Except ε α) (f : α → Except ε β)
    (b : β) : (x >>= f) = .ok b ↔ ∃ a, x = .ok a ∧ f a = .ok b := by
  cases x <;> simp [Bind.bind, Except.bind]

/-- C6: every successful encode emits a one-byte marker ahead of the
payload — `0x01` plus the compressed bytes exactly when compression shrinks
the serialization, otherwise `0x00` plus the raw bytes, so the emitted body
is always `1 + min(compressedLength, rawLength)` bytes — and decode branches
on that marker: `0x01` decompresses (propagating a typed compression error
on failure), `0x00` uses the bytes as-is, and any other marker value fails
with a `DecodingError`. -/
theorem adaptive_compression_marker (z : Zlib) :
    (∀ data schema version tok,
      encodeInternal z data schema version = .ok tok →
      ∃ binary, tok = encodeBase64Url (if (z.deflate binary).length < binary.length
          then 1 :: z.deflate binary else 0 :: binary) ∧
        (if (z.deflate binary).length < binary.length
          then 1 :: z.deflate binary else 0 :: binary).length =
          1 + min (z.deflate binary).length binary.length) ∧
    (∀ schema payload b, hasReservedField schema = false →
      (∀ x ∈ payload, x < 256) → z.inflate payload = .ok b →
      decodeInternal z (encodeBase64Url (1 :: payload)) schema =
        decodeBinary schema b) ∧
    (∀ schema payload, hasReservedField schema = false →
      (∀ x ∈ payload, x < 256) → z.inflate payload = .error () →
      decodeInternal z (encodeBase64Url (1 :: payload)) schema =
        .error (.compression "Decompression failed")) ∧
    (∀ schema payload, hasReservedField schema = false →
      (∀ x ∈ payload, x < 256) →
      decodeInternal z (encodeBase64Url (0 :: payload)) schema =
        decodeBinary schema payload) ∧
    (∀ schema payload m, hasReservedField schema = false →
      (∀ x ∈ payload, x < 256) → 2 ≤ m → m < 256 →
      decodeInternal z (encodeBase64Url (m :: payload)) schema =
        .error (.decoding ("Invalid compression marker: " ++ toString m ++
          ". Expected 0x00 or 0x01"))) := by
  refine ⟨?_, ?_, ?_, ?_, ?_⟩
  · intro data schema version tok h
    unfold encodeInternal at h
    rw [exceptBind_ok] at h
    obtain ⟨u, _, h⟩ := h
    rw [exceptBind_ok] at h
    obtain ⟨validated, _, h⟩ := h
    cases validated <;> simp only [] at h <;>
      first
      | (exact absurd h (by simp))
      | skip
    case jobj vobj =>
      rw [exceptBind_ok] at h
      obtain ⟨fields, _, h⟩ := h
      rw [exceptBind_ok] at h
      obtain ⟨message, _, h⟩ := h
      simp only [Except.ok.injEq] at h
      refine ⟨serV (.vmsg message), h.symm, ?_⟩
      split_ifs <;> simp <;> omega
  · intro schema payload b hres hp hok
    unfold decodeInternal validateSchema
    rw [hres]
    rw [decodeBase64Url_encodeBase64Url _ (by
      intro x hx
      rcases List.mem_cons.mp hx with hx | hx
      · omega
      · exact hp x hx)]
    simp [Bind.bind, Except.bind, hok, Except.mapError]
  · intro schema payload hres hp herr
    unfold decodeInternal validateSchema
    rw [hres]
    rw [decodeBase64Url_encodeBase64Url _ (by
      intro x hx
      rcases List.mem_cons.mp hx with hx | hx
      · omega
      · exact hp x hx)]
    simp [Bind.bind, Except.bind, herr, Except.mapError]
  · intro schema payload hres hp
    unfold decodeInternal validateSchema
    rw [hres]
    rw [decodeBase64Url_encodeBase64Url _ (by
      intro x hx
      rcases List.mem_cons.mp hx with hx | hx
      · omega
      · exact hp x hx)]
    simp [Bind.bind, Except.bind, Pure.pure, Except.pure]
  · intro schema payload m hres hp hm2 hm256
    unfold decodeInternal validateSchema
    rw [hres]
    rw [decodeBase64Url_encodeBase64Url _ (by
      intro x hx
      rcases List.mem_cons.mp hx with hx | hx
      · omega
      · exact hp x hx)]
    obtain ⟨k, rfl⟩ : ∃ k, m = k + 2 := ⟨m - 2, by omega⟩
    simp [Bind.bind, Except.bind]

theorem adaptive_compression_marker_witness :
    decodeInternal toyZlib (encodeBase64Url (5 :: [1, 2])) exSchema =
      .error (.decoding "Invalid compression marker: 5. Expected 0x00 or 0x01") := by
  have h := (adaptive_compression_marker toyZlib).2.2.2.2 exSchema [1, 2] 5
    (by simp [exSchema, hasReservedField, hasReservedKey, hasReservedInFields,
      reservedField])
    (by decide) (by decide) (by decide)
  simpa using h

/-! ## The well-behaved schema subset

The schemas for which the full pipeline provably round-trips: objects of
string, boolean, nested object, optional-atom and array-of-atom fields, with
distinct field names.  Unions are deliberately excluded — the converter
collapses a union to its first alternative's wire type, which breaks the
round trip (see the C1 counterexample); nullable, default, record, map,
tuple, intersection, pipeline and lazy fields are outside the subset as
well. -/

def fieldNames : ZFields → List String
  | .fnil => []
  | .fcons name _ rest => name :: fieldNames rest

def pfNames : PbFields → List String
  | .fnil => []
  | .fcons name _ _ _ rest => name :: pfNames rest

def nodupKeys : ZFields → Bool
  | .fnil => true
  | .fcons name _ rest =>
    !(decide (name ∈ fieldNames rest)) && nodupKeys rest

mutual
def goodFields : ZFields → Bool
  | .fnil => true
  | .fcons _ s rest => goodField s && goodFields rest
def goodField : ZSchema → Bool
  | .zstring => true
  | .zbool => true
  | .zobject fields => nodupKeys fields && goodFields fields
  | .zoptional t => goodAtom t
  | .zarray t => goodAtom t
  | _ => false
def goodAtom : ZSchema → Bool
  | .zstring => true
  | .zbool => true
  | .zobject fields => nodupKeys fields && goodFields fields
  | _ => false
end

def goodSchema : ZSchema → Bool
  | .zobject fields => nodupKeys fields && goodFields fields
  | _ => false

/-! ### Lookup bookkeeping lemmas -/

theorem lookup_appendField_of_some (o : JObj) (k k2 : String) (v x : JVal)
    (h : o.lookup k2 = some x) : (appendField o k v).lookup k2 = some x := by
  cases o with
  | onil => simp [JObj.lookup] at h
  | ocons k0 v0 rest =>
    simp only [JObj.lookup] at h
    by_cases hk : k0 = k2
    · simp only [appendField, JObj.lookup, if_pos hk]
      rw [if_pos hk] at h
      exact h
    · rw [if_neg hk] at h
      simp only [appendField, JObj.lookup, if_neg hk]
      exact lookup_appendField_of_some rest k k2 v x h

theorem lookup_appendField_self (o : JObj) (k : String) (v : JVal)
    (h : o.lookup k = none) : (appendField o k v).lookup k = some v := by
  cases o with
  | onil => simp [appendField, JObj.lookup]
  | ocons k0 v0 rest =>
    simp only [JObj.lookup] at h
    by_cases hk : k0 = k
    · rw [if_pos hk] at h
      exact absurd h (by simp)
    · rw [if_neg hk] at h
      simp only [appendField, JObj.lookup, if_neg hk]
      exact lookup_appendField_self rest k v h

theorem lookup_appendField_ne (o : JObj) (k k2 : String) (v : JVal)
    (h : o.lookup k2 = none) (hne : k2 ≠ k) :
    (appendField o k v).lookup k2 = none := by
  cases o with
  | onil =>
    simp only [appendField, JObj.lookup]
    rw [if_neg (fun hh => hne hh.symm)]
  | ocons k0 v0 rest =>
    simp only [JObj.lookup] at h
    by_cases hk : k0 = k2
    · rw [if_pos hk] at h
      exact absurd h (by simp)
    · rw [if_neg hk] at h
      simp only [appendField, JObj.lookup, if_neg hk]
      exact lookup_appendField_ne rest k k2 v h hne

theorem removeKey_of_lookup_none (o : JObj) (k : String)
    (h : o.lookup k = none) : o.removeKey k = o := by
  cases o with
  | onil => rfl
  | ocons k0 v0 rest =>
    simp only [JObj.lookup] at h
    by_cases hk : k0 = k
    · rw [if_pos hk] at h
      exact absurd h (by simp)
    · rw [if_neg hk] at h
      simp only [JObj.removeKey, if_neg hk]
      rw [removeKey_of_lookup_none rest k h]

theorem reserved_not_mem_of_no_reserved_key (F : ZFields)
    (h : hasReservedKey F = false) : reservedField ∉ fieldNames F := by
  cases F with
  | fnil => simp [fieldNames]
  | fcons name s rest =>
    simp only [hasReservedKey, Bool.or_eq_false_iff, beq_eq_false_iff_ne,
      ne_eq] at h
    simp only [fieldNames, List.mem_cons, not_or]
    exact ⟨fun hy => h.1 hy.symm,
      reserved_not_mem_of_no_reserved_key rest h.2⟩

theorem zparseFields_fcons (name : String) (s : ZSchema) (rest : ZFields)
    (o : JObj) :
    zparseFields (.fcons name s rest) o =
      match o.lookup name with
      | some v => do
          let r ← zparse s v
          let rest' ← zparseFields rest o
          Except.ok (.ocons name r rest')
      | none =>
        match s with
        | .zoptional _ => zparseFields rest o
        | .zdefault _ dflt => do
            let rest' ← zparseFields rest o
            Except.ok (.ocons name dflt rest')
        | _ => .error .zodError := by
  cases s
  case zoptional inner => rw [zparseFields.eq_2]
  case zdefault inner dflt => rw [zparseFields.eq_3]
  all_goals
    rw [zparseFields.eq_4 _ _ _ _ (fun _ h => ZSchema.noConfusion h) (fun _ _ h => ZSchema.noConfusion h)]

theorem zparseFields_ocons_irrelevant (F : ZFields) (k : String) (v : JVal)
    (o : JObj) (hk : k ∉ fieldNames F) :
    zparseFields F (.ocons k v o) = zparseFields F o := by
  cases F with
  | fnil => simp [zparseFields]
  | fcons name s rest =>
    simp only [fieldNames, List.mem_cons, not_or] at hk
    have hlook : (JObj.ocons k v o).lookup name = o.lookup name := by
      simp only [JObj.lookup]
      rw [if_neg hk.1]
    rw [zparseFields_fcons, zparseFields_fcons, hlook]
    have hrec := zparseFields_ocons_irrelevant rest k v o hk.2
    cases ho : o.lookup name with
    | some v0 => simp only [hrec]
    | none => cases s <;> simp only [hrec]

theorem fromObject_congr (pf : PbFields) (d1 d2 : JObj)
    (h : ∀ k, k ∈ pfNames pf → d1.lookup k = d2.lookup k) :
    fromObject pf d1 = fromObject pf d2 := by
  cases pf with
  | fnil => simp [fromObject]
  | fcons name num rule typ rest =>
    have hname : d1.lookup name = d2.lookup name :=
      h name (by simp [pfNames])
    have hrest := fromObject_congr rest d1 d2
      (fun k hk => h k (by simp [pfNames, hk]))
    cases rule <;> simp only [fromObject, hname, hrest]

theorem toObject_mcons_irrelevant (pf : PbFields) (k : String) (pv : PbVal)
    (m : PbMsg) (hk : k ∉ pfNames pf) :
    toObject pf (.mcons k pv m) = toObject pf m := by
  cases pf with
  | fnil => simp [toObject]
  | fcons name num rule typ rest =>
    simp only [pfNames, List.mem_cons, not_or] at hk
    have hlook : (PbMsg.mcons k pv m).lookup name = m.lookup name := by
      simp only [PbMsg.lookup]
      rw [if_neg hk.1]
    cases rule <;> simp only [toObject, hlook,
      toObject_mcons_irrelevant rest k pv m hk.2]

/-! ### Converter success on the subset -/

/-- The wire rule a subset field compiles to. -/
def ruleOfGood : ZSchema → PbRule
  | .zoptional _ => .ropt
  | .zarray _ => .rrep
  | _ => .plain

/-- The scalar schema a subset field wraps. -/
def atomOf : ZSchema → ZSchema
  | .zoptional t => t
  | .zarray t => t
  | t => t

mutual
theorem zodTypeGood (t : ZSchema) (hg : goodAtom t = true) :
    ∃ typ, zodTypeToType t = .ok typ := by
  cases t with
  | zstring => exact ⟨.pstring, by simp [zodTypeToType]⟩
  | zbool => exact ⟨.pbool, by simp [zodTypeToType]⟩
  | zobject F =>
    simp only [goodAtom, Bool.and_eq_true] at hg
    obtain ⟨pf, hpf, _⟩ := convertFieldsGood F 1 hg.2
    exact ⟨.pmessage pf, by simp [zodTypeToType, hpf, Bind.bind, Except.bind]⟩
  | zarray t => simp [goodAtom] at hg
  | zoptional t => simp [goodAtom] at hg
  | znullable t => simp [goodAtom] at hg
  | zdefault t d => simp [goodAtom] at hg
  | zunion o => simp [goodAtom] at hg
  | zdiscUnion o => simp [goodAtom] at hg
  | zintersection l r => simp [goodAtom] at hg
  | zrecord v => simp [goodAtom] at hg
  | zmap k v => simp [goodAtom] at hg
  | ztuple i => simp [goodAtom] at hg
  | zeffects i => simp [goodAtom] at hg
  | zpipeline i o => simp [goodAtom] at hg
  | zlazy i => simp [goodAtom] at hg
  termination_by (sizeOf t, 0)
  decreasing_by all_goals (subst_vars; decreasing_tactic)
theorem convertFieldGood (s : ZSchema) (hg : goodField s = true) :
    ∃ typ, zodTypeToType (atomOf s) = .ok typ ∧
      convertField s = .ok (ruleOfGood s, typ) := by
  cases s with
  | zstring =>
    exact ⟨.pstring, by simp [atomOf, zodTypeToType],
      by simp [convertField, convertFieldNullable, convertFieldCore,
        zodTypeToType, ruleOfGood, Bind.bind, Except.bind]⟩
  | zbool =>
    exact ⟨.pbool, by simp [atomOf, zodTypeToType],
      by simp [convertField, convertFieldNullable, convertFieldCore,
        zodTypeToType, ruleOfGood, Bind.bind, Except.bind]⟩
  | zobject F =>
    have : goodAtom (.zobject F) = true := hg
    obtain ⟨typ, hty⟩ := zodTypeGood (.zobject F) this
    exact ⟨typ, hty,
      by simp [convertField, convertFieldNullable, convertFieldCore, hty,
        ruleOfGood, Bind.bind, Except.bind]⟩
  | zoptional t =>
    simp only [goodField] at hg
    obtain ⟨typ, hty⟩ := zodTypeGood t hg
    refine ⟨typ, by simpa [atomOf] using hty, ?_⟩
    cases t <;> simp [goodAtom] at hg <;>
      simp [convertField, convertFieldNullable, convertFieldCore, hty,
        ruleOfGood, Bind.bind, Except.bind]
  | zarray t =>
    simp only [goodField] at hg
    obtain ⟨typ, hty⟩ := zodTypeGood t hg
    have harr : zodTypeToType (.zarray t) = .ok typ := by
      cases t <;> simp [goodAtom] at hg <;> simp [zodTypeToType, hty] at hty ⊢ <;>
        assumption
    refine ⟨typ, by simpa [atomOf] using hty, ?_⟩
    simp [convertField, convertFieldNullable, convertFieldCore, harr,
      ruleOfGood, Bind.bind, Except.bind]
  | znullable t => simp [goodField] at hg
  | zdefault t d => simp [goodField] at hg
  | zunion o => simp [goodField] at hg
  | zdiscUnion o => simp [goodField] at hg
  | zintersection l r => simp [goodField] at hg
  | zrecord v => simp [goodField] at hg
  | zmap k v => simp [goodField] at hg
  | ztuple i => simp [goodField] at hg
  | zeffects i => simp [goodField] at hg
  | zpipeline i o => simp [goodField] at hg
  | zlazy i => simp [goodField] at hg
  termination_by (sizeOf s, 2)
  decreasing_by all_goals (subst_vars; decreasing_tactic)
theorem convertFieldsGood (F : ZFields) (n : Nat) (hg : goodFields F = true) :
    ∃ pf, convertFields F n = .ok pf ∧ pfNames pf = fieldNames F := by
  cases F with
  | fnil => exact ⟨.fnil, by simp [convertFields], rfl⟩
  | fcons name s rest =>
    simp only [goodFields, Bool.and_eq_true] at hg
    obtain ⟨typ, _, hcf⟩ := convertFieldGood s hg.1
    obtain ⟨pfR, hpfR, hnames⟩ := convertFieldsGood rest (n + 1) hg.2
    refine ⟨.fcons name n (ruleOfGood s) typ pfR, ?_, ?_⟩
    · simp [convertFields, hcf, hpfR, Bind.bind, Except.bind]
    · simp [pfNames, fieldNames, hnames]
  termination_by (sizeOf F, 1)
  decreasing_by all_goals (subst_vars; decreasing_tactic)
end

/-! ### Parse inversion and conversion step lemmas -/

theorem zparse_zoptional_eq (t : ZSchema) (v : JVal) :
    zparse (.zoptional t) v = zparse t v := by
  cases v <;> simp [zparse]

theorem zparse_zstring_ok (v r : JVal) (h : zparse .zstring v = .ok r) :
    ∃ s, v = .jstr s ∧ r = .jstr s := by
  cases v <;> simp only [zparse] at h
  case jstr s =>
    simp only [Except.ok.injEq] at h
    exact ⟨s, rfl, h.symm⟩
  all_goals exact absurd h (by simp)

theorem zparse_zbool_ok (v r : JVal) (h : zparse .zbool v = .ok r) :
    ∃ b, v = .jbool b ∧ r = .jbool b := by
  cases v <;> simp only [zparse] at h
  case jbool b =>
    simp only [Except.ok.injEq] at h
    exact ⟨b, rfl, h.symm⟩
  all_goals exact absurd h (by simp)

theorem zparse_zobject_ok (F : ZFields) (v r : JVal)
    (h : zparse (.zobject F) v = .ok r) :
    ∃ o W, v = .jobj o ∧ r = .jobj W ∧ zparseFields F o = .ok W := by
  cases v <;> simp only [zparse] at h
  case jobj o =>
    rw [exceptBind_ok] at h
    obtain ⟨W, hW, hok⟩ := h
    simp only [Except.ok.injEq] at hok
    exact ⟨o, W, rfl, hok.symm, hW⟩
  all_goals exact absurd h (by simp)

theorem zparse_zarray_ok (t : ZSchema) (v r : JVal)
    (h : zparse (.zarray t) v = .ok r) :
    ∃ a a2, v = .jarr a ∧ r = .jarr a2 ∧ zparseArr t a = .ok a2 := by
  cases v <;> simp only [zparse] at h
  case jarr a =>
    rw [exceptBind_ok] at h
    obtain ⟨a2, ha, hok⟩ := h
    simp only [Except.ok.injEq] at hok
    exact ⟨a, a2, rfl, hok.symm, ha⟩
  all_goals exact absurd h (by simp)

theorem zparse_zobject_of_fields (F : ZFields) (o W : JObj)
    (h : zparseFields F o = .ok W) :
    zparse (.zobject F) (.jobj o) = .ok (.jobj W) := by
  simp [zparse, h, Bind.bind, Except.bind]

theorem zparse_zarray_of_arr (t : ZSchema) (a a2 : JArr)
    (h : zparseArr t a = .ok a2) :
    zparse (.zarray t) (.jarr a) = .ok (.jarr a2) := by
  simp [zparse, h, Bind.bind, Except.bind]

theorem fromObject_cons_present (name : String) (n0 : Nat) (rule : PbRule)
    (typ : PbType) (pfR : PbFields) (W : JObj) (r : JVal) (pv : PbVal)
    (M : PbMsg) (h1 : rule ≠ .rrep) (h2 : rule ≠ .rmap)
    (hlook : W.lookup name = some r) (hr : r ≠ .jnull)
    (hs : fromScalar name typ r = .ok pv) (hrest : fromObject pfR W = .ok M) :
    fromObject (.fcons name n0 rule typ pfR) W = .ok (.mcons name pv M) := by
  rw [fromObject.eq_4 _ _ _ _ _ _ (fun h => h1 h) (fun h => h2 h), hlook]
  cases r
  case jnull => exact absurd rfl hr
  all_goals simp [hs, hrest, Bind.bind, Except.bind]

theorem fromObject_cons_absent (name : String) (n0 : Nat) (rule : PbRule)
    (typ : PbType) (pfR : PbFields) (W : JObj)
    (hlook : W.lookup name = none) :
    fromObject (.fcons name n0 rule typ pfR) W = fromObject pfR W := by
  cases rule <;> simp [fromObject, hlook]

theorem fromObject_cons_arr (name : String) (n0 : Nat) (typ : PbType)
    (pfR : PbFields) (W : JObj) (a : JArr) (elems : PbArr) (M : PbMsg)
    (hlook : W.lookup name = some (.jarr a))
    (harr : fromArr name typ a = .ok elems)
    (hrest : fromObject pfR W = .ok M) :
    fromObject (.fcons name n0 .rrep typ pfR) W =
      .ok (.mcons name (.varr elems) M) := by
  rw [fromObject.eq_2, hlook]
  simp [jsTruthy, harr, hrest, Bind.bind, Except.bind]

theorem toObject_cons_scalar_some (name : String) (n0 : Nat) (rule : PbRule)
    (typ : PbType) (pfR : PbFields) (M : PbMsg) (pv : PbVal)
    (h1 : rule ≠ .rrep) (h2 : rule ≠ .rmap) (hlook : M.lookup name = some pv) :
    toObject (.fcons name n0 rule typ pfR) M =
      .ocons name (toScalar typ pv) (toObject pfR M) := by
  rw [toObject.eq_4 _ _ _ _ _ _ (fun h => h1 h) (fun h => h2 h), hlook]

theorem toObject_cons_scalar_none (name : String) (n0 : Nat) (rule : PbRule)
    (typ : PbType) (pfR : PbFields) (M : PbMsg)
    (h1 : rule ≠ .rrep) (h2 : rule ≠ .rmap) (hlook : M.lookup name = none) :
    toObject (.fcons name n0 rule typ pfR) M = toObject pfR M := by
  rw [toObject.eq_4 _ _ _ _ _ _ (fun h => h1 h) (fun h => h2 h), hlook]

theorem toObject_cons_arr (name : String) (n0 : Nat) (typ : PbType)
    (pfR : PbFields) (M : PbMsg) (a : PbArr)
    (hlook : M.lookup name = some (.varr a)) :
    toObject (.fcons name n0 .rrep typ pfR) M =
      .ocons name (.jarr (toArr typ a)) (toObject pfR M) := by
  rw [toObject.eq_2, hlook]

/-! ### The pipeline round trip on the subset

One mutual induction establishes, for canonical values of subset schemas:
Zod-parse idempotence, key hygiene, converter success, and that
`toObject ∘ fromObject` is the identity. -/

theorem nodupKeys_fcons (name : String) (s : ZSchema) (rest : ZFields)
    (h : nodupKeys (.fcons name s rest) = true) :
    name ∉ fieldNames rest ∧ nodupKeys rest = true := by
  simp only [nodupKeys, Bool.and_eq_true, Bool.not_eq_true',
    decide_eq_false_iff_not] at h
  exact h

theorem ruleOfGood_ne (s : ZSchema) (h : ruleOfGood s = .plain ∨ ruleOfGood s = .ropt) :
    ruleOfGood s ≠ .rrep ∧ ruleOfGood s ≠ .rmap := by
  rcases h with h | h <;> rw [h] <;>
    exact ⟨fun hh => PbRule.noConfusion hh, fun hh => PbRule.noConfusion hh⟩

theorem roundtripFields_consScalar
    (name : String) (s : ZSchema) (rest : ZFields) (n : Nat)
    (r : JVal) (restW : JObj)
    (typ : PbType) (pfR : PbFields) (MR : PbMsg) (pv : PbVal)
    (hname : name ∉ fieldNames rest)
    (hcf : convertField s = .ok (ruleOfGood s, typ))
    (hrule : ruleOfGood s = .plain ∨ ruleOfGood s = .ropt)
    (hB1 : zparse s r = .ok r) (hB2 : r ≠ .jnull)
    (hpv : fromScalar name typ r = .ok pv) (htos : toScalar typ pv = r)
    (ihA1 : zparseFields rest restW = .ok restW)
    (ihA2 : ∀ k, k ∉ fieldNames rest → restW.lookup k = none)
    (ihpfR : convertFields rest (n + 1) = .ok pfR)
    (ihnames : pfNames pfR = fieldNames rest)
    (ihMR : fromObject pfR restW = .ok MR)
    (ihlk : ∀ k, restW.lookup k = none → MR.lookup k = none)
    (ihto : toObject pfR MR = restW) :
    zparseFields (.fcons name s rest) (.ocons name r restW) =
      .ok (.ocons name r restW) ∧
    (∀ k, k ∉ fieldNames (.fcons name s rest) →
      (JObj.ocons name r restW).lookup k = none) ∧
    ∃ pf, convertFields (.fcons name s rest) n = .ok pf ∧
      pfNames pf = fieldNames (.fcons name s rest) ∧
      ∃ M, fromObject pf (.ocons name r restW) = .ok M ∧
        (∀ k, (JObj.ocons name r restW).lookup k = none → M.lookup k = none) ∧
        toObject pf M = .ocons name r restW := by
  obtain ⟨hr1, hr2⟩ := ruleOfGood_ne s hrule
  have hWself : (JObj.ocons name r restW).lookup name = some r := by
    simp [JObj.lookup]
  have hWother : ∀ k, k ≠ name →
      (JObj.ocons name r restW).lookup k = restW.lookup k := by
    intro k hk
    simp only [JObj.lookup]
    rw [if_neg (fun hh => hk hh.symm)]
  have hfromCongr : fromObject pfR (.ocons name r restW) =
      fromObject pfR restW := by
    apply fromObject_congr
    intro k hk
    rw [ihnames] at hk
    exact hWother k (fun hh => hname (hh ▸ hk))
  refine ⟨?_, ?_, ?_⟩
  · rw [zparseFields_fcons, hWself]
    simp only []
    rw [zparseFields_ocons_irrelevant rest name r restW hname]
    simp [hB1, ihA1, Bind.bind, Except.bind]
  · intro k hk
    simp only [fieldNames, List.mem_cons, not_or] at hk
    rw [hWother k hk.1]
    exact ihA2 k hk.2
  · refine ⟨.fcons name n (ruleOfGood s) typ pfR, ?_, ?_, ?_⟩
    · simp [convertFields, hcf, ihpfR, Bind.bind, Except.bind]
    · simp [pfNames, fieldNames, ihnames]
    refine ⟨.mcons name pv MR, ?_, ?_, ?_⟩
    · exact fromObject_cons_present name n (ruleOfGood s) typ pfR _ r pv MR
        hr1 hr2 hWself hB2 hpv (hfromCongr.trans ihMR)
    · intro k hk
      by_cases hkn : k = name
      · subst hkn
        rw [hWself] at hk
        exact absurd hk (by simp)
      · have : restW.lookup k = none := by
          rw [← hWother k hkn]
          exact hk
        have hMk := ihlk k this
        simp only [PbMsg.lookup]
        rw [if_neg (fun hh => hkn hh.symm)]
        exact hMk
    · rw [toObject_cons_scalar_some name n (ruleOfGood s) typ pfR _ pv hr1 hr2
        (by simp [PbMsg.lookup])]
      rw [htos]
      rw [toObject_mcons_irrelevant pfR name pv MR (ihnames ▸ hname), ihto]

theorem roundtripFields_consArr
    (name : String) (t : ZSchema) (rest : ZFields) (n : Nat)
    (a2 : JArr) (restW : JObj)
    (typ : PbType) (pfR : PbFields) (MR : PbMsg) (elems : PbArr)
    (hname : name ∉ fieldNames rest)
    (hcf : convertField (.zarray t) = .ok (.rrep, typ))
    (hB1 : zparseArr t a2 = .ok a2)
    (harr : fromArr name typ a2 = .ok elems) (htoa : toArr typ elems = a2)
    (ihA1 : zparseFields rest restW = .ok restW)
    (ihA2 : ∀ k, k ∉ fieldNames rest → restW.lookup k = none)
    (ihpfR : convertFields rest (n + 1) = .ok pfR)
    (ihnames : pfNames pfR = fieldNames rest)
    (ihMR : fromObject pfR restW = .ok MR)
    (ihlk : ∀ k, restW.lookup k = none → MR.lookup k = none)
    (ihto : toObject pfR MR = restW) :
    zparseFields (.fcons name (.zarray t) rest)
        (.ocons name (.jarr a2) restW) =
      .ok (.ocons name (.jarr a2) restW) ∧
    (∀ k, k ∉ fieldNames (.fcons name (.zarray t) rest) →
      (JObj.ocons name (.jarr a2) restW).lookup k = none) ∧
    ∃ pf, convertFields (.fcons name (.zarray t) rest) n = .ok pf ∧
      pfNames pf = fieldNames (.fcons name (.zarray t) rest) ∧
      ∃ M, fromObject pf (.ocons name (.jarr a2) restW) = .ok M ∧
        (∀ k, (JObj.ocons name (.jarr a2) restW).lookup k = none →
          M.lookup k = none) ∧
        toObject pf M = .ocons name (.jarr a2) restW := by
  have hWself : (JObj.ocons name (.jarr a2) restW).lookup name =
      some (.jarr a2) := by
    simp [JObj.lookup]
  have hWother : ∀ k, k ≠ name →
      (JObj.ocons name (.jarr a2) restW).lookup k = restW.lookup k := by
    intro k hk
    simp only [JObj.lookup]
    rw [if_neg (fun hh => hk hh.symm)]
  have hfromCongr : fromObject pfR (.ocons name (.jarr a2) restW) =
      fromObject pfR restW := by
    apply fromObject_congr
    intro k hk
    rw [ihnames] at hk
    exact hWother k (fun hh => hname (hh ▸ hk))
  refine ⟨?_, ?_, ?_⟩
  · rw [zparseFields_fcons, hWself]
    simp only []
    rw [zparseFields_ocons_irrelevant rest name (.jarr a2) restW hname]
    rw [zparse_zarray_of_arr t a2 a2 hB1]
    simp [ihA1, Bind.bind, Except.bind]
  · intro k hk
    simp only [fieldNames, List.mem_cons, not_or] at hk
    rw [hWother k hk.1]
    exact ihA2 k hk.2
  · refine ⟨.fcons name n .rrep typ pfR, ?_, ?_, ?_⟩
    · simp [convertFields, hcf, ihpfR, Bind.bind, Except.bind]
    · simp [pfNames, fieldNames, ihnames]
    refine ⟨.mcons name (.varr elems) MR, ?_, ?_, ?_⟩
    · exact fromObject_cons_arr name n typ pfR _ a2 elems MR hWself harr
        (hfromCongr.trans ihMR)
    · intro k hk
      by_cases hkn : k = name
      · subst hkn
        rw [hWself] at hk
        exact absurd hk (by simp)
      · have : restW.lookup k = none := by
          rw [← hWother k hkn]
          exact hk
        have hMk := ihlk k this
        simp only [PbMsg.lookup]
        rw [if_neg (fun hh => hkn hh.symm)]
        exact hMk
    · rw [toObject_cons_arr name n typ pfR _ elems (by simp [PbMsg.lookup])]
      rw [htoa]
      rw [toObject_mcons_irrelevant pfR name (.varr elems) MR
        (ihnames ▸ hname), ihto]

theorem roundtripFields_consAbsent
    (name : String) (t : ZSchema) (rest : ZFields) (n : Nat) (restW : JObj)
    (typ : PbType) (pfR : PbFields) (MR : PbMsg)
    (hname : name ∉ fieldNames rest)
    (hcf : convertField (.zoptional t) = .ok (.ropt, typ))
    (ihA1 : zparseFields rest restW = .ok restW)
    (ihA2 : ∀ k, k ∉ fieldNames rest → restW.lookup k = none)
    (ihpfR : convertFields rest (n + 1) = .ok pfR)
    (ihnames : pfNames pfR = fieldNames rest)
    (ihMR : fromObject pfR restW = .ok MR)
    (ihlk : ∀ k, restW.lookup k = none → MR.lookup k = none)
    (ihto : toObject pfR MR = restW) :
    zparseFields (.fcons name (.zoptional t) rest) restW = .ok restW ∧
    (∀ k, k ∉ fieldNames (.fcons name (.zoptional t) rest) →
      restW.lookup k = none) ∧
    ∃ pf, convertFields (.fcons name (.zoptional t) rest) n = .ok pf ∧
      pfNames pf = fieldNames (.fcons name (.zoptional t) rest) ∧
      ∃ M, fromObject pf restW = .ok M ∧
        (∀ k, restW.lookup k = none → M.lookup k = none) ∧
        toObject pf M = restW := by
  have hWnone : restW.lookup name = none := ihA2 name hname
  have hMnone : MR.lookup name = none := ihlk name hWnone
  refine ⟨?_, ?_, ?_⟩
  · rw [zparseFields_fcons, hWnone]
    simp only []
    exact ihA1
  · intro k hk
    simp only [fieldNames, List.mem_cons, not_or] at hk
    exact ihA2 k hk.2
  · refine ⟨.fcons name n .ropt typ pfR, ?_, ?_, ?_⟩
    · simp [convertFields, hcf, ihpfR, Bind.bind, Except.bind]
    · simp [pfNames, fieldNames, ihnames]
    refine ⟨MR, ?_, ?_, ?_⟩
    · rw [fromObject_cons_absent name n .ropt typ pfR restW hWnone]
      exact ihMR
    · exact ihlk
    · rw [toObject_cons_scalar_none name n .ropt typ pfR MR
        (fun hh => PbRule.noConfusion hh) (fun hh => PbRule.noConfusion hh)
        hMnone]
      exact ihto

mutual
theorem roundtripFields (F : ZFields) (o W : JObj) (n : Nat)
    (hg : goodFields F = true) (hnd : nodupKeys F = true)
    (hp : zparseFields F o = .ok W) :
    zparseFields F W = .ok W ∧
    (∀ k, k ∉ fieldNames F → W.lookup k = none) ∧
    ∃ pf, convertFields F n = .ok pf ∧ pfNames pf = fieldNames F ∧
      ∃ M, fromObject pf W = .ok M ∧
        (∀ k, W.lookup k = none → M.lookup k = none) ∧
        toObject pf M = W := by
  cases F with
  | fnil =>
    simp only [zparseFields, Except.ok.injEq] at hp
    subst hp
    refine ⟨by simp [zparseFields], by simp [JObj.lookup], .fnil,
      by simp [convertFields], rfl, .mnil, by simp [fromObject],
      by simp [PbMsg.lookup], by simp [toObject]⟩
  | fcons name s rest =>
    simp only [goodFields, Bool.and_eq_true] at hg
    obtain ⟨hgs, hgrest⟩ := hg
    obtain ⟨hname, hndR⟩ := nodupKeys_fcons name s rest hnd
    rw [zparseFields_fcons] at hp
    cases holo : o.lookup name with
    | some v =>
      rw [holo] at hp
      simp only [] at hp
      rw [exceptBind_ok] at hp
      obtain ⟨r, hr, hp⟩ := hp
      rw [exceptBind_ok] at hp
      obtain ⟨restW, hrest, hp⟩ := hp
      simp only [Except.ok.injEq] at hp
      subst hp
      obtain ⟨ihA1, ihA2, pfR, ihpfR, ihnames, MR, ihMR, ihlk, ihto⟩ :=
        roundtripFields rest o restW (n + 1) hgrest hndR hrest
      obtain ⟨typ, hty, hcf⟩ := convertFieldGood s hgs
      cases s with
      | zstring =>
        obtain ⟨b1, b2, typ2, hty2, hconv⟩ := roundtripAtom .zstring v r hgs hr
        rw [show atomOf .zstring = .zstring from rfl] at hty
        rw [hty] at hty2
        cases hty2
        obtain ⟨pv, hpv, hto2⟩ := hconv name
        exact roundtripFields_consScalar name .zstring rest n r restW typ pfR
          MR pv hname hcf (.inl rfl) b1 b2 hpv hto2 ihA1 ihA2 ihpfR ihnames
          ihMR ihlk ihto
      | zbool =>
        obtain ⟨b1, b2, typ2, hty2, hconv⟩ := roundtripAtom .zbool v r hgs hr
        rw [show atomOf .zbool = .zbool from rfl] at hty
        rw [hty] at hty2
        cases hty2
        obtain ⟨pv, hpv, hto2⟩ := hconv name
        exact roundtripFields_consScalar name .zbool rest n r restW typ pfR
          MR pv hname hcf (.inl rfl) b1 b2 hpv hto2 ihA1 ihA2 ihpfR ihnames
          ihMR ihlk ihto
      | zobject F2 =>
        obtain ⟨b1, b2, typ2, hty2, hconv⟩ :=
          roundtripAtom (.zobject F2) v r hgs hr
        rw [show atomOf (.zobject F2) = .zobject F2 from rfl] at hty
        rw [hty] at hty2
        cases hty2
        obtain ⟨pv, hpv, hto2⟩ := hconv name
        exact roundtripFields_consScalar name (.zobject F2) rest n r restW typ
          pfR MR pv hname hcf (.inl rfl) b1 b2 hpv hto2 ihA1 ihA2 ihpfR
          ihnames ihMR ihlk ihto
      | zoptional t =>
        rw [zparse_zoptional_eq] at hr
        obtain ⟨b1, b2, typ2, hty2, hconv⟩ :=
          roundtripAtom t v r (by simpa [goodField] using hgs) hr
        rw [show atomOf (.zoptional t) = t from rfl] at hty
        rw [hty] at hty2
        cases hty2
        obtain ⟨pv, hpv, hto2⟩ := hconv name
        exact roundtripFields_consScalar name (.zoptional t) rest n r restW
          typ pfR MR pv hname hcf (.inr rfl)
          (by rw [zparse_zoptional_eq]; exact b1) b2 hpv hto2 ihA1 ihA2 ihpfR
          ihnames ihMR ihlk ihto
      | zarray t =>
        obtain ⟨a, a2, hv, hrr, hpArr⟩ := zparse_zarray_ok t v r hr
        subst hv
        subst hrr
        have hgt : goodAtom t = true := by simpa [goodField] using hgs
        obtain ⟨c1, c2⟩ := roundtripArr t a a2 hgt hpArr
        rw [show atomOf (.zarray t) = t from rfl] at hty
        obtain ⟨elems, helems, htoa⟩ := c2 typ hty name
        exact roundtripFields_consArr name t rest n a2 restW typ pfR MR elems
          hname (by rwa [show ruleOfGood (.zarray t) = .rrep from rfl] at hcf)
          c1 helems htoa ihA1 ihA2 ihpfR ihnames ihMR ihlk ihto
      | znullable t => simp [goodField] at hgs
      | zdefault t d => simp [goodField] at hgs
      | zunion x => simp [goodField] at hgs
      | zdiscUnion x => simp [goodField] at hgs
      | zintersection a b => simp [goodField] at hgs
      | zrecord x => simp [goodField] at hgs
      | zmap a b => simp [goodField] at hgs
      | ztuple x => simp [goodField] at hgs
      | zeffects x => simp [goodField] at hgs
      | zpipeline a b => simp [goodField] at hgs
      | zlazy x => simp [goodField] at hgs
    | none =>
      rw [holo] at hp
      simp only [] at hp
      cases s with
      | zoptional t =>
        obtain ⟨ihA1, ihA2, pfR, ihpfR, ihnames, MR, ihMR, ihlk, ihto⟩ :=
          roundtripFields rest o W (n + 1) hgrest hndR hp
        obtain ⟨typ, hty, hcf⟩ := convertFieldGood (.zoptional t) hgs
        exact roundtripFields_consAbsent name t rest n W typ pfR MR hname
          (by rwa [show ruleOfGood (.zoptional t) = .ropt from rfl] at hcf)
          ihA1 ihA2 ihpfR ihnames ihMR ihlk ihto
      | zstring => exact absurd hp (by simp)
      | zbool => exact absurd hp (by simp)
      | zobject F2 => exact absurd hp (by simp)
      | zarray t => exact absurd hp (by simp)
      | znullable t => simp [goodField] at hgs
      | zdefault t d => simp [goodField] at hgs
      | zunion x => simp [goodField] at hgs
      | zdiscUnion x => simp [goodField] at hgs
      | zintersection a b => simp [goodField] at hgs
      | zrecord x => simp [goodField] at hgs
      | zmap a b => simp [goodField] at hgs
      | ztuple x => simp [goodField] at hgs
      | zeffects x => simp [goodField] at hgs
      | zpipeline a b => simp [goodField] at hgs
      | zlazy x => simp [goodField] at hgs
  termination_by (sizeOf F, 0)
  decreasing_by all_goals (subst_vars; decreasing_tactic)
theorem roundtripAtom (s : ZSchema) (v r : JVal) (hg : goodAtom s = true)
    (hp : zparse s v = .ok r) :
    zparse s r = .ok r ∧ r ≠ .jnull ∧
    ∃ typ, zodTypeToType s = .ok typ ∧
      ∀ name, ∃ pv, fromScalar name typ r = .ok pv ∧ toScalar typ pv = r := by
  cases s with
  | zstring =>
    obtain ⟨str, hv, hrr⟩ := zparse_zstring_ok v r hp
    subst hv
    subst hrr
    exact ⟨by simp [zparse], by simp, .pstring, by simp [zodTypeToType],
      fun name => ⟨.vstr str, by simp [fromScalar, jsToString],
        by simp [toScalar]⟩⟩
  | zbool =>
    obtain ⟨b, hv, hrr⟩ := zparse_zbool_ok v r hp
    subst hv
    subst hrr
    exact ⟨by simp [zparse], by simp, .pbool, by simp [zodTypeToType],
      fun name => ⟨.vbool b, by simp [fromScalar, jsTruthy],
        by simp [toScalar]⟩⟩
  | zobject F =>
    obtain ⟨o, W, hv, hrr, hfields⟩ := zparse_zobject_ok F v r hp
    subst hv
    subst hrr
    simp only [goodAtom, Bool.and_eq_true] at hg
    obtain ⟨A1, _, pf, hpf, _, M, hM, _, hto⟩ :=
      roundtripFields F o W 1 hg.2 hg.1 hfields
    refine ⟨zparse_zobject_of_fields F W W A1, by simp, .pmessage pf,
      by simp [zodTypeToType, hpf, Bind.bind, Except.bind], fun name => ?_⟩
    refine ⟨.vmsg M, ?_, ?_⟩
    · simp [fromScalar, hM, Bind.bind, Except.bind]
    · simp [toScalar, hto]
  | zarray t => simp [goodAtom] at hg
  | zoptional t => simp [goodAtom] at hg
  | znullable t => simp [goodAtom] at hg
  | zdefault t d => simp [goodAtom] at hg
  | zunion x => simp [goodAtom] at hg
  | zdiscUnion x => simp [goodAtom] at hg
  | zintersection a b => simp [goodAtom] at hg
  | zrecord x => simp [goodAtom] at hg
  | zmap a b => simp [goodAtom] at hg
  | ztuple x => simp [goodAtom] at hg
  | zeffects x => simp [goodAtom] at hg
  | zpipeline a b => simp [goodAtom] at hg
  | zlazy x => simp [goodAtom] at hg
  termination_by (sizeOf s, sizeOf v)
  decreasing_by all_goals (subst_vars; decreasing_tactic)
theorem roundtripArr (s : ZSchema) (a a2 : JArr) (hg : goodAtom s = true)
    (hp : zparseArr s a = .ok a2) :
    zparseArr s a2 = .ok a2 ∧
    ∀ typ, zodTypeToType s = .ok typ → ∀ name, ∃ elems,
      fromArr name typ a2 = .ok elems ∧ toArr typ elems = a2 := by
  cases a with
  | anil =>
    simp only [zparseArr, Except.ok.injEq] at hp
    subst hp
    exact ⟨by simp [zparseArr], fun typ _ name =>
      ⟨.pnil, by simp [fromArr], by simp [toArr]⟩⟩
  | acons v rest =>
    simp only [zparseArr] at hp
    rw [exceptBind_ok] at hp
    obtain ⟨r, hr, hp⟩ := hp
    rw [exceptBind_ok] at hp
    obtain ⟨rest2, hrest, hp⟩ := hp
    simp only [Except.ok.injEq] at hp
    subst hp
    obtain ⟨ih1, ih2⟩ := roundtripArr s rest rest2 hg hrest
    obtain ⟨b1, _, typ0, hty0, hconv⟩ := roundtripAtom s v r hg hr
    constructor
    · simp [zparseArr, b1, ih1, Bind.bind, Except.bind]
    · intro typ hty name
      rw [hty0] at hty
      cases hty
      obtain ⟨pv, hpv, hto⟩ := hconv name
      obtain ⟨elems, helems, htoA⟩ := ih2 typ0 hty0 name
      refine ⟨.pcons pv elems, ?_, ?_⟩
      · simp [fromArr, hpv, helems, Bind.bind, Except.bind]
      · simp [toArr, hto, htoA]
  termination_by (sizeOf s, sizeOf a)
  decreasing_by all_goals (subst_vars; decreasing_tactic)
end

/-! ### The full pipeline round trip -/

theorem lookup_appendField_other (o : JObj) (k k2 : String) (v : JVal)
    (h : k2 ≠ k) : (appendField o k v).lookup k2 = o.lookup k2 := by
  cases ho : o.lookup k2 with
  | some x => exact lookup_appendField_of_some o k k2 v x ho
  | none => exact lookup_appendField_ne o k k2 v ho h

theorem hasReservedField_zobject_parts (F : ZFields)
    (h : hasReservedField (.zobject F) = false) :
    hasReservedKey F = false ∧ reservedField ∉ fieldNames F := by
  simp only [hasReservedField, Bool.or_eq_false_iff] at h
  exact ⟨h.1, reserved_not_mem_of_no_reserved_key F h.1⟩

theorem decode_of_marked (z : Zlib) (hz : zlibOk z) (S : ZSchema) (M : PbMsg)
    (hres : hasReservedField S = false) :
    decodeInternal z (encodeBase64Url
        (if (z.deflate (serV (.vmsg M))).length < (serV (.vmsg M)).length
          then 1 :: z.deflate (serV (.vmsg M)) else 0 :: serV (.vmsg M))) S =
      decodeBinary S (serV (.vmsg M)) := by
  have hbytes : ∀ x ∈ serV (.vmsg M), x < 256 := serV_lt _
  by_cases hcmp : (z.deflate (serV (.vmsg M))).length < (serV (.vmsg M)).length
  · rw [if_pos hcmp]
    unfold decodeInternal validateSchema
    rw [hres]
    rw [decodeBase64Url_encodeBase64Url _ (by
      intro x hx
      rcases List.mem_cons.mp hx with hx | hx
      · omega
      · exact hz.2 _ hbytes x hx)]
    simp [Bind.bind, Except.bind, hz.1, Except.mapError, Bool.false_eq_true,
      if_false]
  · rw [if_neg hcmp]
    unfold decodeInternal validateSchema
    rw [hres]
    rw [decodeBase64Url_encodeBase64Url _ (by
      intro x hx
      rcases List.mem_cons.mp hx with hx | hx
      · omega
      · exact hbytes x hx)]
    simp [Bind.bind, Except.bind, Pure.pure, Except.pure, Bool.false_eq_true,
      if_false]

theorem pipeline_roundtrip (z : Zlib) (hz : zlibOk z) (S : ZSchema) (V : JVal)
    (hg : goodSchema S = true) (hres : hasReservedField S = false)
    (hc : zparse S V = .ok V) (version : Int) :
    ∃ tok M,
      encodeInternal z V S version = .ok tok ∧
      (version = 1 → M.lookup reservedField = none) ∧
      (version ≠ 1 → M.lookup reservedField =
        some (.vuint (version % 4294967296).toNat)) ∧
      tok = encodeBase64Url
        (if (z.deflate (serV (.vmsg M))).length < (serV (.vmsg M)).length
          then 1 :: z.deflate (serV (.vmsg M)) else 0 :: serV (.vmsg M)) ∧
      (version = 1 → decodeWithVersion z tok S = .ok (V, 1)) ∧
      (version ≠ 1 → decodeWithVersion z tok S =
        .ok (V, ((version % 4294967296).toNat : Int))) := by
  -- the subset schema is an object
  obtain ⟨F, rfl⟩ : ∃ F, S = .zobject F := by
    cases S <;> simp [goodSchema] at hg <;> exact ⟨_, rfl⟩
  obtain ⟨W, W2, hV, hW, hfields⟩ := zparse_zobject_ok F V V hc
  rw [hV] at hW
  simp only [JVal.jobj.injEq] at hW
  subst hW
  subst hV
  simp only [goodSchema, Bool.and_eq_true] at hg
  obtain ⟨hkey, hrmem⟩ := hasReservedField_zobject_parts F hres
  obtain ⟨A1, A2, pf, hpf, hpfnames, M0, hM0, hlk0, hto0⟩ :=
    roundtripFields F W W 2 hg.2 hg.1 hfields
  have hWres : W.lookup reservedField = none := A2 reservedField hrmem
  have hM0res : M0.lookup reservedField = none := hlk0 reservedField hWres
  have hfieldsEq : zodToProtobuf (.zobject F) =
      .ok (.fcons reservedField 1 .ropt .puint32 pf) := by
    simp [zodToProtobuf, unwrapEffects, hpf, Bind.bind, Except.bind]
  have hrmem2 : reservedField ∉ pfNames pf := hpfnames ▸ hrmem
  -- the message, by version
  by_cases hv : version = 1
  · subst hv
    refine ⟨_, M0, ?_, fun _ => hM0res, fun h => absurd rfl h, rfl, fun _ => ?_,
      fun h => absurd rfl h⟩
    · unfold encodeInternal validateSchema
      rw [hres]
      simp only [Bind.bind, Except.bind, hc, if_pos rfl, hfieldsEq,
        Bool.false_eq_true, if_false, if_true]
      rw [fromObject_cons_absent reservedField 1 .ropt .puint32 pf W hWres]
      rw [hM0]
    · show decodeInternal z _ _ = _
      rw [decode_of_marked z hz (.zobject F) M0 hres]
      unfold decodeBinary
      simp only [Bind.bind, Except.bind, hfieldsEq, pbDecode_serV, Pure.pure,
        Except.pure]
      rw [toObject_cons_scalar_none reservedField 1 .ropt .puint32 pf M0
        (fun hh => PbRule.noConfusion hh) (fun hh => PbRule.noConfusion hh)
        hM0res]
      rw [hto0, hWres]
      simp [hc, Bind.bind, Except.bind]
  · have hjs : jsToUint32 (.jnum version) = (version % 4294967296).toNat := by
      simp only [jsToUint32]
    have hWv : (appendField W reservedField (.jnum version)).lookup
        reservedField = some (.jnum version) :=
      lookup_appendField_self W reservedField (.jnum version) hWres
    have hcongr : fromObject pf (appendField W reservedField (.jnum version)) =
        fromObject pf W := by
      apply fromObject_congr
      intro k hk
      rw [hpfnames] at hk
      exact lookup_appendField_other W reservedField k (.jnum version)
        (fun hh => hrmem (hh ▸ hk))
    refine ⟨_, .mcons reservedField (.vuint (version % 4294967296).toNat) M0,
      ?_, fun h => absurd h hv, fun _ => by simp [PbMsg.lookup], rfl,
      fun h => absurd h hv, fun _ => ?_⟩
    · unfold encodeInternal validateSchema
      rw [hres]
      simp only [Bind.bind, Except.bind, hc, if_neg hv, hfieldsEq,
        Bool.false_eq_true, if_false, if_true]
      rw [fromObject_cons_present reservedField 1 .ropt .puint32 pf
        (appendField W reservedField (.jnum version)) (.jnum version)
        (.vuint (version % 4294967296).toNat) M0
        (fun hh => PbRule.noConfusion hh) (fun hh => PbRule.noConfusion hh)
        hWv (by simp) (by simp [fromScalar, hjs]) (hcongr.trans hM0)]
    · show decodeInternal z _ _ = _
      rw [decode_of_marked z hz (.zobject F)
        (.mcons reservedField (.vuint (version % 4294967296).toNat) M0) hres]
      unfold decodeBinary
      simp only [Bind.bind, Except.bind, hfieldsEq, pbDecode_serV, Pure.pure,
        Except.pure]
      rw [toObject_cons_scalar_some reservedField 1 .ropt .puint32 pf
        (.mcons reservedField (.vuint (version % 4294967296).toNat) M0)
        (.vuint (version % 4294967296).toNat)
        (fun hh => PbRule.noConfusion hh) (fun hh => PbRule.noConfusion hh)
        (by simp [PbMsg.lookup])]
      rw [toObject_mcons_irrelevant pf reservedField _ M0 hrmem2, hto0]
      simp only [toScalar]
      have hlook : (JObj.ocons reservedField
          (.jnum (((version % 4294967296).toNat : Nat) : Int)) W).lookup
            reservedField =
          some (.jnum (((version % 4294967296).toNat : Nat) : Int)) := by
        simp [JObj.lookup]
      rw [hlook]
      have hrem : (JObj.ocons reservedField
          (.jnum (((version % 4294967296).toNat : Nat) : Int)) W).removeKey
            reservedField = W := by
        simp only [JObj.removeKey, if_pos rfl]
        exact removeKey_of_lookup_none W reservedField hWres
      rw [hrem]
      simp [hc, Bind.bind, Except.bind]

/-! ## The concrete example instantiated for the pipeline theorems -/

theorem exSchema_good : goodSchema exSchema = true := by
  simp [exSchema, goodSchema, nodupKeys, goodFields, goodField, fieldNames]

theorem exSchema_noReserved : hasReservedField exSchema = false := by
  simp [exSchema, hasReservedField, hasReservedKey, hasReservedInFields,
    reservedField]

theorem exValue_canonical : zparse exSchema exValue = .ok exValue := by
  simp [exSchema, exValue, zparse, zparseFields, JObj.lookup, Bind.bind,
    Except.bind]

/-- C4 counterexample: the public `encode` entry point does not reject
out-of-domain versions — encoding `{a: true}` at version 1024 and at version
−1 both succeed (the version is embedded via the JS `>>> 0` coercion rather
than rejected), so the claim that the version boundary "holds both for the
framing operation and for the public encode entry point" is false on the
code. -/
theorem encode_accepts_out_of_range_version :
    (encode toyZlib exValue exSchema 1024).isOk = true ∧
    (encode toyZlib exValue exSchema (-1)).isOk = true := by
  obtain ⟨tok1, M1, henc1, -, -, -, -, -⟩ :=
    pipeline_roundtrip toyZlib toyZlib_ok exSchema exValue exSchema_good
      exSchema_noReserved exValue_canonical 1024
  obtain ⟨tok2, M2, henc2, -, -, -, -, -⟩ :=
    pipeline_roundtrip toyZlib toyZlib_ok exSchema exValue exSchema_good
      exSchema_noReserved exValue_canonical (-1)
  constructor
  · show (encodeInternal toyZlib exValue exSchema 1024).isOk = true
    rw [henc1]
    rfl
  · show (encodeInternal toyZlib exValue exSchema (-1)).isOk = true
    rw [henc2]
    rfl

theorem applyMigrations_missing_hop_witness :
    ∃ tok, encode toyZlib exValue exSchema 1 = .ok tok ∧
      applyMigrations toyZlib tok exSchema exSchema 3 [] =
        .error (.versionMismatch
          "Missing migration from version 1 to 2. Cannot upgrade from v1 to v3.") := by
  obtain ⟨tok, M, henc, -, -, -, hd1, -⟩ :=
    pipeline_roundtrip toyZlib toyZlib_ok exSchema exValue exSchema_good
      exSchema_noReserved exValue_canonical 1
  refine ⟨tok, henc, ?_⟩
  have h := (applyMigrations_missing_hop toyZlib tok exSchema exSchema 3 []
    exValue 1 (hd1 rfl)).1 (by decide) (by decide)
  rw [h]
  simp only [missingUpMsg]
  norm_num
  rfl

theorem applyMigrations_chain_witness :
    ∃ tok, encode toyZlib exValue exSchema 1 = .ok tok ∧
      applyMigrations toyZlib tok exSchema exSchema 3 [exMigA, exMigB] =
        encode toyZlib (exMigB.up (exMigA.up exValue)) exSchema 3 := by
  obtain ⟨tok, M, henc, -, -, -, hd1, -⟩ :=
    pipeline_roundtrip toyZlib toyZlib_ok exSchema exValue exSchema_good
      exSchema_noReserved exValue_canonical 1
  refine ⟨tok, henc, ?_⟩
  have h := (applyMigrations_chain toyZlib tok exSchema exSchema 3
    [exMigA, exMigB] exValue 1 (hd1 rfl)).1 (by decide) (by decide) (by simp)
  rw [h]
  rfl

/-! ## The union counterexample to the unrestricted round trip

`z.union([z.string(), z.boolean()])` converts to the wire type of its FIRST
alternative (`zodTypeToProtobufType`, converter.ts lines 239–247), so a
boolean value is coerced to the string `"true"` on the wire and comes back
as a string. -/

/-- `z.object({ x: z.union([z.string(), z.boolean()]) })`. -/
def unionSchema : ZSchema :=
  .zobject (.fcons "x" (.zunion (.lcons .zstring (.lcons .zbool .lnil))) .fnil)

/-- `{ x: true }` — valid under `unionSchema` (the second alternative). -/
def unionValue : JVal := .jobj (.ocons "x" (.jbool true) .onil)

/-- `{ x: "true" }` — what the pipeline actually returns for `unionValue`. -/
def unionValueOut : JVal := .jobj (.ocons "x" (.jstr "true") .onil)

/-- The wire descriptor of `unionSchema`: the union field is a plain
`string` field. -/
def unionPf : PbFields :=
  .fcons reservedField 1 .ropt .puint32 (.fcons "x" 2 .plain .pstring .fnil)

/-- The wire message produced for `unionValue`: the boolean has been
`String()`-coerced. -/
def unionMsg : PbMsg := .mcons "x" (.vstr "true") .mnil

theorem unionSchema_noReserved : hasReservedField unionSchema = false := by
  simp [unionSchema, hasReservedField, hasReservedKey, hasReservedInFields,
    hasReservedInList, reservedField]

theorem unionValue_canonical :
    zparse unionSchema unionValue = .ok unionValue := by
  simp [unionSchema, unionValue, zparse, zparseFields, zparseFirst,
    JObj.lookup, Bind.bind, Except.bind]

theorem zodToProtobuf_unionSchema :
    zodToProtobuf unionSchema = .ok unionPf := by
  simp [unionSchema, unionPf, zodToProtobuf, unwrapEffects, convertFields,
    convertField, convertFieldNullable, convertFieldCore, zodTypeToType,
    Bind.bind, Except.bind]

theorem fromObject_unionValue :
    fromObject unionPf (.ocons "x" (.jbool true) .onil) = .ok unionMsg := by
  rw [unionPf, fromObject_cons_absent reservedField 1 .ropt .puint32 _ _
    (by simp [JObj.lookup, reservedField])]
  rw [fromObject_cons_present "x" 2 .plain .pstring .fnil _ (.jbool true)
    (.vstr "true") .mnil (fun hh => PbRule.noConfusion hh)
    (fun hh => PbRule.noConfusion hh) (by simp [JObj.lookup]) (by simp)
    (by simp [fromScalar, jsToString]) (by simp [fromObject])]
  rfl

/-- The version-1 encoding pipeline, stated symbolically: with the schema
validation, parse, converter and `fromObject` steps given, `encodeInternal`
serializes the message, adaptively compresses, and base64url-encodes. -/
theorem encodeInternal_eq (z : Zlib) (S : ZSchema) (V : JVal) (W : JObj)
    (pf : PbFields) (M : PbMsg)
    (hres : hasReservedField S = false)
    (hzp : zparse S V = .ok (.jobj W))
    (hpf : zodToProtobuf S = .ok pf)
    (hfrom : fromObject pf W = .ok M) :
    encodeInternal z V S 1 = .ok (encodeBase64Url
      (if (z.deflate (serV (.vmsg M))).length < (serV (.vmsg M)).length
        then 1 :: z.deflate (serV (.vmsg M)) else 0 :: serV (.vmsg M))) := by
  unfold encodeInternal validateSchema
  rw [hres]
  simp only [Bind.bind, Except.bind, hzp, Bool.false_eq_true, if_false,
    if_pos rfl, if_true, hpf, hfrom]

/-- Steps 3–6 of decoding, stated symbolically, in the version-absent
branch. -/
theorem decodeBinary_eq (S : ZSchema) (pf0 : PbFields) (M : PbMsg) (O : JObj)
    (R : JVal)
    (hpf : zodToProtobuf S = .ok pf0)
    (hto : toObject pf0 M = O)
    (hlk : O.lookup reservedField = none)
    (hzp : zparse S (.jobj O) = .ok R) :
    decodeBinary S (serV (.vmsg M)) = .ok (R, 1) := by
  unfold decodeBinary
  simp only [Bind.bind, Except.bind, hpf, pbDecode_serV, Pure.pure,
    Except.pure, hto, hlk, hzp]

theorem encodeInternal_unionValue :
    encodeInternal toyZlib unionValue unionSchema 1 =
      .ok (encodeBase64Url
        (if (toyZlib.deflate (serV (.vmsg unionMsg))).length <
            (serV (.vmsg unionMsg)).length
          then 1 :: toyZlib.deflate (serV (.vmsg unionMsg))
          else 0 :: serV (.vmsg unionMsg))) :=
  encodeInternal_eq toyZlib unionSchema unionValue
    (.ocons "x" (.jbool true) .onil) unionPf unionMsg unionSchema_noReserved
    unionValue_canonical zodToProtobuf_unionSchema fromObject_unionValue

theorem toObject_unionMsg :
    toObject unionPf unionMsg = .ocons "x" (.jstr "true") .onil := by
  rw [unionPf, toObject_cons_scalar_none reservedField 1 .ropt .puint32 _
    unionMsg (fun hh => PbRule.noConfusion hh) (fun hh => PbRule.noConfusion hh)
    (by simp [unionMsg, PbMsg.lookup, reservedField])]
  rw [toObject_cons_scalar_some "x" 2 .plain .pstring .fnil unionMsg
    (.vstr "true") (fun hh => PbRule.noConfusion hh)
    (fun hh => PbRule.noConfusion hh) (by simp [unionMsg, PbMsg.lookup])]
  simp [toObject, toScalar]

theorem zparse_unionOut :
    zparse unionSchema (.jobj (.ocons "x" (.jstr "true") .onil)) =
      .ok unionValueOut := by
  simp [unionSchema, unionValueOut, zparse, zparseFields, zparseFirst,
    JObj.lookup, Bind.bind, Except.bind]

theorem decode_unionToken :
    decode toyZlib (encodeBase64Url
        (if (toyZlib.deflate (serV (.vmsg unionMsg))).length <
            (serV (.vmsg unionMsg)).length
          then 1 :: toyZlib.deflate (serV (.vmsg unionMsg))
          else 0 :: serV (.vmsg unionMsg))) unionSchema =
      .ok unionValueOut := by
  unfold decode
  rw [decode_of_marked toyZlib toyZlib_ok unionSchema unionMsg
    unionSchema_noReserved]
  rw [decodeBinary_eq unionSchema unionPf unionMsg
    (.ocons "x" (.jstr "true") .onil) unionValueOut zodToProtobuf_unionSchema
    toObject_unionMsg (by simp [JObj.lookup, reservedField]) zparse_unionOut]
  rfl

/-- C1 counterexample: the round trip fails outside the subset — for the
schema `z.object({x: z.union([z.string(), z.boolean()])})`, which has an
object root and no reserved field name, the valid value `{x: true}` encodes
successfully but decodes to `{x: "true"}`: the converter collapses the union
to its first alternative's wire type, so the boolean is string-coerced on
the wire and the round trip returns a different value. -/
theorem union_roundtrip_broken :
    zparse unionSchema unionValue = .ok unionValue ∧
    hasReservedField unionSchema = false ∧
    ∃ tok, encode toyZlib unionValue unionSchema 1 = .ok tok ∧
      decode toyZlib tok unionSchema = .ok unionValueOut ∧
      unionValueOut ≠ unionValue := by
  refine ⟨unionValue_canonical, unionSchema_noReserved, _,
    encodeInternal_unionValue, decode_unionToken,
    by simp [unionValueOut, unionValue]⟩

/-- C1 (amended): the round trip holds on the well-behaved subset — for
every schema whose root is an object of string, boolean, nested-object,
optional and array-of-atom fields with distinct field names (unions and the
other constructs are excluded: the converter collapses a union to its first
alternative's wire type, see the counterexample), that does not contain the
reserved version-field name, and for every value `V` canonical under `S`,
`decode(encode(V, S), S)` succeeds and returns exactly `V`. -/
theorem roundtrip_good_subset (z : Zlib) (hz : zlibOk z) (S : ZSchema)
    (V : JVal) (hg : goodSchema S = true) (hres : hasReservedField S = false)
    (hc : zparse S V = .ok V) :
    ∃ tok, encode z V S 1 = .ok tok ∧ decode z tok S = .ok V := by
  obtain ⟨tok, M, henc, -, -, -, hd1, -⟩ :=
    pipeline_roundtrip z hz S V hg hres hc 1
  have hdec : decodeInternal z tok S = .ok (V, 1) := hd1 rfl
  refine ⟨tok, henc, ?_⟩
  unfold decode
  rw [hdec]
  rfl

theorem roundtrip_good_subset_witness :
    goodSchema exSchema = true ∧ hasReservedField exSchema = false ∧
    zparse exSchema exValue = .ok exValue ∧
    ∃ tok, encode toyZlib exValue exSchema 1 = .ok tok ∧
      decode toyZlib tok exSchema = .ok exValue :=
  ⟨exSchema_good, exSchema_noReserved, exValue_canonical,
    roundtrip_good_subset toyZlib toyZlib_ok exSchema exValue exSchema_good
      exSchema_noReserved exValue_canonical⟩

/-- C5 counterexample: `decodeWithVersion` does not return "exactly v" for
every `v ≠ 1` — encoding `{a: true}` at version −1 succeeds, but the encoder
embeds the JS `>>> 0` coercion of −1, and decoding yields version
4294967295, not −1. -/
theorem version_wraps_at_minus_one :
    ∃ tok, encode toyZlib exValue exSchema (-1) = .ok tok ∧
      decodeWithVersion toyZlib tok exSchema = .ok (exValue, 4294967295) ∧
      decodeWithVersion toyZlib tok exSchema ≠ .ok (exValue, -1) := by
  obtain ⟨tok, M, henc, -, -, -, -, hd2⟩ :=
    pipeline_roundtrip toyZlib toyZlib_ok exSchema exValue exSchema_good
      exSchema_noReserved exValue_canonical (-1)
  have hd := hd2 (by decide)
  have hmod : ((((-1 : Int) % 4294967296).toNat : Nat) : Int) = 4294967295 := by
    decide
  rw [hmod] at hd
  exact ⟨tok, henc, hd, by rw [hd]; simp⟩

/-- C5 (amended): for canonical values of subset schemas, encoding at
version 1 never embeds the reserved version field in the serialized message
and decoding such a token yields the default version 1; for every `v ≠ 1`
the encoder embeds the reserved field carrying the JS `>>> 0` coercion of
`v` — the value `v mod 2^32` — and `decodeWithVersion` on the resulting
token returns exactly that coerced value, which equals `v` precisely on
`0 ≤ v < 2^32` (outside that range the version wraps, see the
counterexample). -/
theorem version_field_embedding (z : Zlib) (hz : zlibOk z) (S : ZSchema)
    (V : JVal) (hg : goodSchema S = true) (hres : hasReservedField S = false)
    (hc : zparse S V = .ok V) (version : Int) :
    ∃ tok M,
      encode z V S version = .ok tok ∧
      tok = encodeBase64Url
        (if (z.deflate (serV (.vmsg M))).length < (serV (.vmsg M)).length
          then 1 :: z.deflate (serV (.vmsg M)) else 0 :: serV (.vmsg M)) ∧
      (version = 1 → M.lookup reservedField = none ∧
        decodeWithVersion z tok S = .ok (V, 1)) ∧
      (version ≠ 1 → M.lookup reservedField =
          some (.vuint (version % 4294967296).toNat) ∧
        decodeWithVersion z tok S =
          .ok (V, ((version % 4294967296).toNat : Int))) ∧
      (0 ≤ version → version < 4294967296 →
        decodeWithVersion z tok S = .ok (V, version)) := by
  obtain ⟨tok, M, henc, h1, h2, htok, hd1, hd2⟩ :=
    pipeline_roundtrip z hz S V hg hres hc version
  refine ⟨tok, M, henc, htok, fun hv => ⟨h1 hv, hd1 hv⟩,
    fun hv => ⟨h2 hv, hd2 hv⟩, fun hv0 hv1 => ?_⟩
  by_cases hv : version = 1
  · rw [hd1 hv, hv]
  · have hcast : (((version % 4294967296).toNat : Nat) : Int) = version := by
      omega
    rw [hd2 hv, hcast]

theorem version_field_embedding_witness :
    ∃ tok, encode toyZlib exValue exSchema 7 = .ok tok ∧
      decodeWithVersion toyZlib tok exSchema = .ok (exValue, 7) := by
  obtain ⟨tok, M, henc, -, -, -, hexact⟩ :=
    version_field_embedding toyZlib toyZlib_ok exSchema exValue exSchema_good
      exSchema_noReserved exValue_canonical 7
  exact ⟨tok, henc, hexact (by decide) (by decide)⟩

end QP